import Mathlib

/-!
The script convert-to-markdown.js : a shallow embedding

The script reads `conversations.json` (and optionally `projects.json`), renders every
conversation to Markdown and writes one file per conversation.

Conventions of the embedding

* A JavaScript string is the list of its UTF-16 code units (`JSString`), because
  `substring`, `charAt`, `slice` and the regular expressions of the script (none has the
  `u` flag) all work on code units.
* A JSON field is a `Val`: a string, or another value carried by what the script can
  observe of it (its kind, its truthiness and its conversion to a string). An object whose
  conversion to a string would itself throw (an own non-callable `toString` entry) is not
  represented.
* A field that should hold an array is a `ListField`.
* A thrown exception is `Except.error`; a write that Node.js or the file system rejects
  throws like any other statement of the `try` block it stands in.
* The script is given twice: through the sequence of writes it performs
  (`convertExportToMarkdown`) and as a transformation of the output directory
  (`convertExportToMarkdownOn`); `convertExportToMarkdownOn_eq` relates the two.
* Host facilities whose result depends on the machine (date formatting, `path.extname`,
  Unicode case mapping, whether the file system takes a write) are the fields of a `Host`.
-/

namespace ClaudeExport

/-! ## Strings -/

/-- One UTF-16 code unit. -/
abbrev CodeUnit := Nat

/-- A JavaScript string: its sequence of UTF-16 code units. -/
abbrev JSString := List CodeUnit

/-- UTF-16 encoding of one Unicode scalar value. -/
def utf16 (c : Char) : List CodeUnit :=
  if c.toNat < 65536 then [c.toNat]
  else [55296 + (c.toNat - 65536) / 1024, 56320 + (c.toNat - 65536) % 1024]

/-- The JavaScript string denoted by a source literal. -/
def lit (s : String) : JSString :=
  (s.toList.map utf16).flatten

/-- The method `Array.prototype.join(sep)` on an array of strings. -/
def joinWith (sep : JSString) : List JSString → JSString
  | [] => []
  | [x] => x
  | x :: y :: rest => x ++ sep ++ joinWith sep (y :: rest)

/-- The conversion `String(n)` for a non-negative integer `n` (below `10^21` JavaScript prints such a
number as its plain decimal digits); `fuel` bounds the number of digits. -/
def digitsFuel : Nat → Nat → JSString → JSString
  | 0, _, acc => acc
  | fuel + 1, n, acc =>
    if n < 10 then (48 + n) :: acc
    else digitsFuel fuel (n / 10) ((48 + n % 10) :: acc)

/-- The conversion `String(n)` for a non-negative integer `n` (line 141, `index + 1`). -/
def numberToString (n : Nat) : JSString :=
  digitsFuel (n + 1) n []

/-- The call `s.padStart(3, '0')`: zeros are added on the left up to length 3, a longer
string is returned unchanged. -/
def padStart3 (s : JSString) : JSString :=
  List.replicate (3 - s.length) 48 ++ s

/-- The comparison `a < b` on strings: lexicographic on code units. -/
def strLt : JSString → JSString → Bool
  | _, [] => false
  | [], _ :: _ => true
  | a :: as, b :: bs => a < b || (a == b && strLt as bs)

/-! ## sanitizeFilename (lines 107-114) -/

/-- The character class `[<>:"/\\|?*]` of line 109. -/
def isUnsafeChar (c : CodeUnit) : Bool :=
  c == 60 || c == 62 || c == 58 || c == 34 || c == 47 || c == 92 || c == 124 ||
    c == 63 || c == 42

/-- The character class `\s` of ECMAScript: WhiteSpace and LineTerminator code points. -/
def isWhitespace (c : CodeUnit) : Bool :=
  c == 9 || c == 10 || c == 11 || c == 12 || c == 13 || c == 32 || c == 160 ||
    c == 5760 || (8192 ≤ c && c ≤ 8202) || c == 8232 || c == 8233 || c == 8239 ||
    c == 8287 || c == 12288 || c == 65279

/-- The underscore `_`. -/
def underscore : CodeUnit := 95

/-- Line 109, `.replace(/[<>:"/\\|?*]/g, '_')`: every unsafe character becomes an underscore. -/
def replaceUnsafe (s : JSString) : JSString :=
  s.map (fun c => if isUnsafeChar c then underscore else c)

/-- The call `.replace(/C+/g, '_')` for a character class `C`: every maximal run of characters of
the class is replaced by one underscore. `inRun` tells that the previous character
belonged to the run being replaced. -/
def replaceRuns (p : CodeUnit → Bool) : Bool → JSString → JSString
  | _, [] => []
  | inRun, c :: cs =>
    if p c then
      (if inRun then replaceRuns p true cs else underscore :: replaceRuns p true cs)
    else c :: replaceRuns p false cs

/-- Line 110, `.replace(/\s+/g, '_')`. -/
def collapseWhitespace (s : JSString) : JSString :=
  replaceRuns isWhitespace false s

/-- Line 111, `.replace(/_+/g, '_')`. -/
def collapseUnderscores (s : JSString) : JSString :=
  replaceRuns (fun c => c == underscore) false s

/-- The `^_` alternative of line 112: an underscore at index 0 is removed. -/
def dropLeadingUnderscore : JSString → JSString
  | [] => []
  | c :: cs => if c == underscore then cs else c :: cs

/-- The `_$` alternative of line 112: an underscore at the last index is removed. -/
def dropTrailingUnderscore : JSString → JSString
  | [] => []
  | [c] => if c == underscore then [] else [c]
  | c :: d :: cs => c :: dropTrailingUnderscore (d :: cs)

/-- Line 112, `.replace(/^_|_$/g, '')`: the scan first meets index 0 (where only `^_` can match,
or `_$` on a one-character string), then the later indices, where only `_$` can match,
at the last one. -/
def trimUnderscores (s : JSString) : JSString :=
  dropTrailingUnderscore (dropLeadingUnderscore s)

/-- The function `sanitizeFilename` on a string argument (`substring(0, 200)` keeps the
first 200 code units). -/
def sanitizeFilename (filename : JSString) : JSString :=
  (trimUnderscores (collapseUnderscores (collapseWhitespace (replaceUnsafe filename)))).take 200

/-! ## JSON values as the script observes them -/

/-- A thrown JavaScript exception: a `TypeError` raised while rendering or naming, or
the error with which `fs.writeFileSync` rejects a write. -/
inductive JSError where
  | typeError
  | systemError
  deriving DecidableEq, Repr

deriving instance DecidableEq for Except

/-- The value of a JSON field. `undef` is a missing field. A number is carried by its
decimal text `String(n)`; an array or a plain object is carried by its string conversion
(the text a template literal inserts for it). -/
inductive Val where
  | undef
  | null
  | bool (b : Bool)
  | num (text : JSString)
  | str (s : JSString)
  | obj (text : JSString)
  deriving DecidableEq, Repr

namespace Val

/-- JavaScript truthiness: `undefined`, `null`, `false`, `0` and `""` are falsy. -/
def truthy : Val → Bool
  | undef => false
  | null => false
  | bool b => b
  | num t => t != lit "0"
  | str s => !s.isEmpty
  | obj _ => true

/-- The conversion `String(v)` made by a template literal `${v}` and by a property key. -/
def toStr : Val → JSString
  | undef => lit "undefined"
  | null => lit "null"
  | bool b => if b then lit "true" else lit "false"
  | num t => t
  | str s => s
  | obj t => t

/-- The text `Array.prototype.join` gives to an element: empty for `undefined` and
`null`, `String(v)` otherwise. -/
def joinStr : Val → JSString
  | undef => []
  | null => []
  | v => v.toStr

/-- The operator `a || b`. -/
def or (a b : Val) : Val :=
  if a.truthy then a else b

end Val

/-- The value of a field the script iterates with `forEach`: a falsy value (missing,
`null`, `0`, `""`, `false`), an array, or some other truthy value, for which
`lengthPositive` records whether `value.length > 0` holds (a non-empty string, an object
with a suitable `length` entry). -/
inductive ListField (α : Type) where
  | falsy
  | arr (items : List α)
  | nonArray (lengthPositive : Bool)

/-- Host facilities whose results depend on the machine or on Unicode tables. -/
structure Host where
  /-- The text `new Date(v).toLocaleString()` -/
  dateLocale : Val → JSString
  /-- The text `new Date(v).toLocaleString("en-US", ...)` with the options of lines 47-53 -/
  dateEnUS : Val → JSString
  /-- The result of `path.extname(p)` on a string -/
  extname : JSString → JSString
  /-- The method `String.prototype.toLowerCase` -/
  toLowerCase : JSString → JSString
  /-- The method `String.prototype.toUpperCase` -/
  toUpperCase : JSString → JSString
  /-- Whether the file system takes a write of the given data under the given name in the
  output directory (name length in bytes, permissions, free space) -/
  fileSystemAccepts : JSString → JSString → Bool

/-! ## Data model

Array elements are `Option`: `none` is a `null` element. An element that is a number, a
string, a boolean or an array has none of the fields read by the script, so it is the
record whose fields are all `undef` or `falsy`. -/

structure ContentBlock where
  type : Val
  text : Val

structure Attachment where
  file_name : Val
  file_size : Val
  file_type : Val
  extracted_content : Val

structure FileRef where
  file_name : Val

structure Message where
  sender : Val
  created_at : Val
  content : ListField (Option ContentBlock)
  text : Val
  attachments : ListField (Option Attachment)
  files : ListField (Option FileRef)

structure Conversation where
  name : Val
  created_at : Val
  updated_at : Val
  uuid : Val
  chat_messages : ListField (Option Message)

structure Doc where
  filename : Val
  created_at : Val
  content : Val

structure Project where
  name : Val
  created_at : Val
  updated_at : Val
  is_private : Val
  uuid : Val
  description : Val
  prompt_template : Val
  docs : ListField (Option Doc)

/-! ## typeLookup (lines 7-13) -/

/-- The five own entries of the object literal `typeLookup`. -/
def typeLookupOwn : List (JSString × JSString) :=
  [ (lit "application/vnd.ant.react", lit "jsx"),
    (lit "text/html", lit "html"),
    (lit "application/javascript", lit "javascript"),
    (lit "text/css", lit "css"),
    (lit "application/json", lit "json") ]

/-- The members an object literal inherits from `Object.prototype`, each with the string
conversion of its value (a built-in function, or the prototype object for `__proto__`). -/
def objectPrototype : List (JSString × JSString) :=
  [ (lit "constructor", lit "function Object() \x7b [native code] \x7d"),
    (lit "__defineGetter__", lit "function __defineGetter__() \x7b [native code] \x7d"),
    (lit "__defineSetter__", lit "function __defineSetter__() \x7b [native code] \x7d"),
    (lit "hasOwnProperty", lit "function hasOwnProperty() \x7b [native code] \x7d"),
    (lit "__lookupGetter__", lit "function __lookupGetter__() \x7b [native code] \x7d"),
    (lit "__lookupSetter__", lit "function __lookupSetter__() \x7b [native code] \x7d"),
    (lit "isPrototypeOf", lit "function isPrototypeOf() \x7b [native code] \x7d"),
    (lit "propertyIsEnumerable", lit "function propertyIsEnumerable() \x7b [native code] \x7d"),
    (lit "toString", lit "function toString() \x7b [native code] \x7d"),
    (lit "valueOf", lit "function valueOf() \x7b [native code] \x7d"),
    (lit "__proto__", lit "[object Object]"),
    (lit "toLocaleString", lit "function toLocaleString() \x7b [native code] \x7d") ]

/-- The property read `typeLookup[key]`: an own entry, else an inherited member of
`Object.prototype` (a truthy non-string value), else `undefined`. -/
def typeLookup (key : JSString) : Val :=
  match typeLookupOwn.lookup key with
  | some language => Val.str language
  | none =>
    match objectPrototype.lookup key with
    | some text => Val.obj text
    | none => Val.undef

/-! ## convertClaudeJsonToMarkdown (lines 31-104) -/

/-- The loop `items.forEach(f)` where each call of `f` pushes some segments onto `bits` or throws:
the segments pushed by the whole loop, or the first exception. -/
def forEachPush {α : Type} (f : α → Except JSError (List JSString)) :
    List α → Except JSError (List JSString)
  | [] => pure []
  | x :: xs => do
    let pushed ← f x
    let more ← forEachPush f xs
    pure (pushed ++ more)

/-- A method call `v.method(...)` of a `String.prototype` method (`charAt`, `replace`),
and `path.extname(v)`: the string itself, a `TypeError` for any other value. -/
def Val.asString : Val → Except JSError JSString
  | Val.str s => pure s
  | _ => throw JSError.typeError

/-- Lines 61-65: the callback applied to one content block. -/
def renderContentBlock (content : Option ContentBlock) : Except JSError (List JSString) :=
  match content with
  | none => throw JSError.typeError
  | some c =>
    if c.type = Val.str (lit "text") ∧ c.text.truthy then pure [c.text.joinStr]
    else pure []

/-- Lines 59-69: the message body. -/
def renderBody (content : ListField (Option ContentBlock)) (text : Val) :
    Except JSError (List JSString) :=
  match content with
  | ListField.arr (c :: cs) => forEachPush renderContentBlock (c :: cs)
  | ListField.nonArray true => throw JSError.typeError
  | _ => if text.truthy then pure [text.joinStr] else pure []

/-- Lines 80-81: the language of the code fence of an attachment. -/
def attachmentLanguage (h : Host) (fileName : JSString) (fileType : Val) : Val :=
  let extension := (h.toLowerCase (h.extname fileName)).drop 1
  ((typeLookup fileType.toStr).or (Val.str extension)).or (Val.str (lit "text"))

/-- Lines 75-89: the callback applied to one attachment. -/
def renderAttachment (h : Host) (attachment : Option Attachment) :
    Except JSError (List JSString) :=
  match attachment with
  | none => throw JSError.typeError
  | some a => do
    let summary := lit "<summary>" ++ a.file_name.toStr ++ lit " (" ++ a.file_size.toStr ++
      lit " bytes, " ++ a.file_type.toStr ++ lit ")</summary>"
    let code ←
      if a.extracted_content.truthy then do
        let fileName ← a.file_name.asString
        let language := attachmentLanguage h fileName a.file_type
        pure [lit "", lit "```" ++ language.toStr, a.extracted_content.joinStr, lit "```"]
      else pure []
    pure ([lit "<details>", summary] ++ code ++ [lit "</details>"])

/-- Lines 71-91: the attachments of a message. -/
def renderAttachments (h : Host) (attachments : ListField (Option Attachment)) :
    Except JSError (List JSString) :=
  match attachments with
  | ListField.arr (a :: as) => do
    let pushed ← forEachPush (renderAttachment h) (a :: as)
    pure (lit "### 📎 Attachments" :: pushed)
  | ListField.nonArray true => throw JSError.typeError
  | _ => pure []

/-- Line 96: the callback applied to one file reference. -/
def renderFile (file : Option FileRef) : Except JSError (List JSString) :=
  match file with
  | none => throw JSError.typeError
  | some f => pure [lit "**File:** " ++ f.file_name.toStr]

/-- Lines 93-98: the file references of a message. -/
def renderFiles (files : ListField (Option FileRef)) : Except JSError (List JSString) :=
  match files with
  | ListField.arr (f :: fs) => forEachPush renderFile (f :: fs)
  | ListField.nonArray true => throw JSError.typeError
  | _ => pure []

/-- Lines 55-56: the header segment of a message. -/
def senderHeader (h : Host) (sender : Val) : Except JSError JSString := do
  let senderIcon := if sender = Val.str (lit "human") then lit "👤" else lit "🤖"
  let s ← sender.asString
  pure (lit "## " ++ senderIcon ++ lit " " ++ (h.toUpperCase (s.take 1) ++ s.drop 1))

/-- Lines 45-101: the callback applied to one message. -/
def renderMessage (h : Host) (message : Option Message) : Except JSError (List JSString) :=
  match message with
  | none => throw JSError.typeError
  | some m => do
    let timestamp := h.dateEnUS m.created_at
    let header ← senderHeader h m.sender
    let body ← renderBody m.content m.text
    let attachments ← renderAttachments h m.attachments
    let files ← renderFiles m.files
    pure ([header, lit "*" ++ timestamp ++ lit "*"] ++ body ++ attachments ++ files ++
      [lit "---"])

/-- Lines 39-43: the five header segments of a conversation. -/
def conversationHeader (h : Host) (c : Conversation) : List JSString :=
  [ lit "# " ++ (c.name.or (Val.str (lit "Untitled Conversation"))).toStr,
    lit "**Created:** " ++ h.dateLocale c.created_at,
    lit "**Updated:** " ++ h.dateLocale c.updated_at,
    lit "**UUID:** " ++ c.uuid.toStr,
    lit "---" ]

/-- The function `convertClaudeJsonToMarkdown`; `none` is a `null` argument. -/
def convertClaudeJsonToMarkdown (h : Host) (conversation : Option Conversation) :
    Except JSError JSString :=
  match conversation with
  | none => throw JSError.typeError
  | some c =>
    match c.chat_messages with
    | ListField.falsy => pure []
    | ListField.nonArray _ => throw JSError.typeError
    | ListField.arr messages => do
      let sections ← forEachPush (renderMessage h) messages
      pure (joinWith (lit "\n\n") (conversationHeader h c ++ sections))

/-! ## convertProjectsToMarkdown (lines 176-227) -/

/-- Lines 212-213: the language of the code fence of a project document. -/
def docLanguage (h : Host) (filename : JSString) : Val :=
  let extension := (h.toLowerCase (h.extname filename)).drop 1
  if extension = lit "md" then Val.str (lit "markdown")
  else (Val.str extension).or (Val.str (lit "text"))

/-- Lines 207-218: the callback applied to one document of a project. -/
def renderDoc (h : Host) (doc : Option Doc) : Except JSError (List JSString) :=
  match doc with
  | none => throw JSError.typeError
  | some d => do
    let filename ← d.filename.asString
    let language := docLanguage h filename
    pure [ lit "#### " ++ d.filename.toStr,
           lit "*Created: " ++ h.dateLocale d.created_at ++ lit "*",
           lit "",
           lit "```" ++ language.toStr,
           d.content.joinStr,
           lit "```",
           lit "" ]

/-- Lines 202-220: the documents of a project. -/
def renderDocs (h : Host) (docs : ListField (Option Doc)) : Except JSError (List JSString) :=
  match docs with
  | ListField.arr (d :: ds) => do
    let pushed ← forEachPush (renderDoc h) (d :: ds)
    pure ([lit "", lit "### 📄 Documents"] ++ pushed)
  | ListField.nonArray true => throw JSError.typeError
  | _ => pure []

/-- Lines 182-223: the callback applied to one project. -/
def renderProject (h : Host) (project : Option Project) : Except JSError (List JSString) :=
  match project with
  | none => throw JSError.typeError
  | some p => do
    let description :=
      if p.description.truthy then [lit "", lit "**Description:**", p.description.joinStr]
      else []
    let template :=
      if p.prompt_template.truthy then
        [lit "", lit "**Prompt Template:**", lit "```", p.prompt_template.joinStr, lit "```"]
      else []
    let docs ← renderDocs h p.docs
    pure ([ lit "## " ++ p.name.toStr,
            lit "**Created:** " ++ h.dateLocale p.created_at,
            lit "**Updated:** " ++ h.dateLocale p.updated_at,
            lit "**Private:** " ++ (if p.is_private.truthy then lit "Yes" else lit "No"),
            lit "**UUID:** " ++ p.uuid.toStr ] ++
          description ++ template ++ docs ++ [lit "---", lit ""])

/-- The function `convertProjectsToMarkdown` on an array of projects. -/
def convertProjectsToMarkdown (h : Host) (projects : List (Option Project)) :
    Except JSError JSString := do
  let sections ← forEachPush (renderProject h) projects
  pure (joinWith (lit "\n") ([lit "# Claude Projects", lit ""] ++ sections))

/-! ## convertExportToMarkdown (lines 117-173) -/

/-- The call `sanitizeFilename(v)`: `v.replace` is a function only when `v` is a string. -/
def sanitizeFilenameCall (v : Val) : Except JSError JSString := do
  let filename ← v.asString
  pure (sanitizeFilename filename)

/-- Line 140: the argument of `sanitizeFilename`, the name or the placeholder. -/
def nameOrPlaceholder (name : Val) (index : Nat) : Val :=
  name.or (Val.str (lit "conversation_" ++ numberToString (index + 1)))

/-- Line 141: the output filename built from the index and the sanitized base name. -/
def outputFilename (index : Nat) (baseName : JSString) : JSString :=
  padStart3 (numberToString (index + 1)) ++ lit "_" ++ baseName ++ lit ".md"

/-- One call of `fs.writeFileSync`: the filename inside the output directory and the
data. -/
abbrev Write := JSString × JSString

/-- The output directory: a map from filename to content. -/
abbrev Dir := JSString → Option JSString

/-- The effect of a write that succeeds: the file is created or overwritten. -/
def Dir.write (d : Dir) (w : Write) : Dir :=
  fun name => if name = w.1 then some w.2 else d name

/-- The output directory after a sequence of successful writes. -/
def Dir.replay (d : Dir) (ws : List Write) : Dir :=
  ws.foldl Dir.write d

/-- Whether the call `fs.writeFileSync(outputPath, data, 'utf8')` returns: Node.js throws
for a path that holds the code unit U+0000, and otherwise the file system decides. -/
def writeSucceeds (h : Host) (w : Write) : Bool :=
  !w.1.contains 0 && h.fileSystemAccepts w.1 w.2

/-- The call `fs.writeFileSync(outputPath, data, 'utf8')` (lines 145 and 163) on the
output directory: the file is created or overwritten, or the call throws and leaves no
file. -/
def writeFileSync (h : Host) (d : Dir) (w : Write) : Except JSError Dir :=
  if writeSucceeds h w then pure (d.write w) else throw JSError.systemError

/-- Lines 137-142, the body of the inner `try` up to the write: the filename and the
content for the conversation at `index`, or the exception thrown on the way. -/
def convertAt (h : Host) (index : Nat) (conversation : Option Conversation) :
    Except JSError Write := do
  let markdown ← convertClaudeJsonToMarkdown h conversation
  match conversation with
  | none => throw JSError.typeError
  | some c =>
    let baseName ← sanitizeFilenameCall (nameOrPlaceholder c.name index)
    pure (outputFilename index baseName, markdown)

/-- Lines 137-145, the whole body of the inner `try`: the write performed for the
conversation at `index`, or the exception thrown by the rendering, the naming or the
write itself. -/
def writeAt (h : Host) (index : Nat) (conversation : Option Conversation) :
    Except JSError Write := do
  let w ← convertAt h index conversation
  if writeSucceeds h w then pure w else throw JSError.systemError

/-- Lines 135-151: the loop over the conversations, from position `index` on. Each
position either performs its write or throws; the `catch` of line 148 logs the error and
the loop goes on. The result is the sequence of writes performed, in order. -/
def convertConversations (h : Host) : Nat → List (Option Conversation) → List Write
  | _, [] => []
  | index, conversation :: rest =>
    match writeAt h index conversation with
    | Except.ok w => w :: convertConversations h (index + 1) rest
    | Except.error _ => convertConversations h (index + 1) rest

/-- What reading and parsing an input file gives: the file does not exist, or it cannot
be used (unreadable, not JSON, not an array), or it holds an array. -/
inductive FileState (α : Type) where
  | missing
  | unusable
  | parsed (value : α)

/-- The observable outcome of a run: the writes performed, in order, and the exit status
of the process. -/
structure Run where
  writes : List Write
  exitCode : Nat

/-- The function `convertExportToMarkdown`, seen through the writes it performs. An
exception outside the inner `try` (the input files, the projects renderer, the write of
line 163) reaches the `catch` of line 169, which exits with status 1; the writes already
made remain. -/
def convertExportToMarkdown (h : Host)
    (conversationsFile : FileState (List (Option Conversation)))
    (projectsFile : FileState (List (Option Project))) : Run :=
  match conversationsFile with
  | FileState.parsed conversations =>
    let written := convertConversations h 0 conversations
    match projectsFile with
    | FileState.missing => ⟨written, 0⟩
    | FileState.unusable => ⟨written, 1⟩
    | FileState.parsed projects =>
      match convertProjectsToMarkdown h projects with
      | Except.ok projectsMarkdown =>
        if writeSucceeds h (lit "000_projects.md", projectsMarkdown) then
          ⟨written ++ [(lit "000_projects.md", projectsMarkdown)], 0⟩
        else ⟨written, 1⟩
      | Except.error _ => ⟨written, 1⟩
  | _ => ⟨[], 1⟩

/-! ## convertExportToMarkdown as a transformation of the output directory -/

/-- Lines 136-150: one turn of the loop with its `try` and `catch`, acting on the output
directory. When the rendering, the naming or the write throws, the directory is left as
it was. -/
def convertOneOn (h : Host) (index : Nat) (conversation : Option Conversation) (d : Dir) :
    Dir :=
  match (do
      let w ← convertAt h index conversation
      writeFileSync h d w) with
  | Except.ok written => written
  | Except.error _ => d

/-- Lines 135-151: the loop over the conversations, threading the output directory. -/
def convertConversationsOn (h : Host) : Nat → List (Option Conversation) → Dir → Dir
  | _, [], d => d
  | index, conversation :: rest, d =>
    convertConversationsOn h (index + 1) rest (convertOneOn h index conversation d)

/-- The function `convertExportToMarkdown` as it acts on the output directory (which
lines 122-124 create when it does not exist yet): the directory it leaves and the exit
status. -/
def convertExportToMarkdownOn (h : Host)
    (conversationsFile : FileState (List (Option Conversation)))
    (projectsFile : FileState (List (Option Project))) (d : Dir) : Dir × Nat :=
  match conversationsFile with
  | FileState.parsed conversations =>
    let afterLoop := convertConversationsOn h 0 conversations d
    match projectsFile with
    | FileState.missing => (afterLoop, 0)
    | FileState.unusable => (afterLoop, 1)
    | FileState.parsed projects =>
      match (do
          let projectsMarkdown ← convertProjectsToMarkdown h projects
          writeFileSync h afterLoop (lit "000_projects.md", projectsMarkdown)) with
      | Except.ok written => (written, 0)
      | Except.error _ => (afterLoop, 1)
  | _ => (d, 1)

/-! ## escapeHtml (lines 16-28) -/

/-- The character class `[&<>"']` of line 18. -/
def isHtmlSpecial (c : CodeUnit) : Bool :=
  c == 38 || c == 60 || c == 62 || c == 34 || c == 39

/-- The object `entityMap` of lines 19-25, keyed by the matched character. -/
def entityMap : List (CodeUnit × JSString) :=
  [ (38, lit "&amp;"),
    (60, lit "&lt;"),
    (62, lit "&gt;"),
    (34, lit "&quot;"),
    (39, lit "&#39;") ]

/-- The replacement callback of lines 18-27 on one code unit: a character of the class
is replaced by `entityMap[match]` (a missing entry would be inserted as `undefined`),
any other character stays. -/
def escapeChar (c : CodeUnit) : JSString :=
  if isHtmlSpecial c then
    (match entityMap.lookup c with
     | some entity => entity
     | none => lit "undefined")
  else [c]

/-- The call `str.replace(/[&<>"']/g, ...)` of line 18 on a string. -/
def escapeHtmlString (s : JSString) : JSString :=
  (s.map escapeChar).flatten

/-- The function `escapeHtml`: a value that is not a string is returned as it is. -/
def escapeHtml : Val → Val
  | Val.str s => Val.str (escapeHtmlString s)
  | v => v

/-- The five entities produced by `escapeHtml`. -/
def htmlEntities : List JSString :=
  [lit "&amp;", lit "&lt;", lit "&gt;", lit "&quot;", lit "&#39;"]

/-! ## A concrete host, for evaluating the definitions -/

/-- The state of the backward scan of `path.extname` (POSIX): `startDot` and `endIdx`
hold the variables `startDot` and `end` plus one (0 stands for -1), `preDotState` is 0, 1
or 2 (for -1), `done` records the `break`. -/
structure ExtScan where
  startDot : Nat
  startPart : Nat
  endIdx : Nat
  matchedSlash : Bool
  preDotState : Nat
  done : Bool

/-- One step of the loop of `path.extname` at index `i` holding code unit `code`. -/
def ExtScan.step (st : ExtScan) (i : Nat) (code : CodeUnit) : ExtScan :=
  if st.done then st
  else if code = 47 then
    (if !st.matchedSlash then { st with startPart := i + 1, done := true } else st)
  else
    let st1 := if st.endIdx = 0 then { st with matchedSlash := false, endIdx := i + 2 } else st
    if code = 46 then
      (if st1.startDot = 0 then { st1 with startDot := i + 1 }
       else if st1.preDotState ≠ 1 then { st1 with preDotState := 1 } else st1)
    else if st1.startDot ≠ 0 then { st1 with preDotState := 2 }
    else st1

/-- The backward scan over the code units, given last first with their indices. -/
def ExtScan.run : ExtScan → List (Nat × CodeUnit) → ExtScan
  | st, [] => st
  | st, (i, code) :: rest => ExtScan.run (st.step i code) rest

/-- The POSIX `path.extname` of Node.js. -/
def posixExtname (path : JSString) : JSString :=
  let st := ExtScan.run ⟨0, 0, 0, true, 0, false⟩ path.enum.reverse
  if st.startDot = 0 ∨ st.endIdx = 0 ∨ st.preDotState = 0 ∨
      (st.preDotState = 1 ∧ st.startDot = st.endIdx - 1 ∧ st.startDot = st.startPart + 2) then []
  else (path.take (st.endIdx - 1)).drop (st.startDot - 1)

/-- Case mapping restricted to ASCII letters `A`-`Z`. -/
def asciiLower (s : JSString) : JSString :=
  s.map (fun c => if 65 ≤ c ∧ c ≤ 90 then c + 32 else c)

/-- Case mapping restricted to ASCII letters `a`-`z`. -/
def asciiUpper (s : JSString) : JSString :=
  s.map (fun c => if 97 ≤ c ∧ c ≤ 122 then c - 32 else c)

/-- A host for concrete evaluation: POSIX paths, ASCII case mapping, dates that do not
parse (as for a missing `created_at`), which JavaScript prints as `Invalid Date`, and a
file system that takes every write Node.js passes on to it. -/
def sampleHost : Host where
  dateLocale := fun _ => lit "Invalid Date"
  dateEnUS := fun _ => lit "Invalid Date"
  extname := posixExtname
  toLowerCase := asciiLower
  toUpperCase := asciiUpper
  fileSystemAccepts := fun _ _ => true

/-! ## Inputs that conform to the data model -/

/-- The value is a string. -/
def Val.isStr : Val → Bool
  | Val.str _ => true
  | _ => false

/-- The field is missing or holds an array of objects (no `null` element), each
satisfying `ok`. -/
def ListField.wellFormed {α : Type} (ok : α → Bool) : ListField (Option α) → Bool
  | ListField.falsy => true
  | ListField.arr items => items.all (fun x => match x with
      | some a => ok a
      | none => false)
  | ListField.nonArray _ => false

/-- An attachment as the data model has it: `file_name` is a string. -/
def Attachment.wellFormed (a : Attachment) : Bool :=
  a.file_name.isStr

/-- A message as the data model has it: `sender` is a string, and `content`,
`attachments` and `files` are missing or arrays of objects. -/
def Message.wellFormed (m : Message) : Bool :=
  m.sender.isStr && m.content.wellFormed (fun _ => true) &&
    m.attachments.wellFormed Attachment.wellFormed && m.files.wellFormed (fun _ => true)

/-! ## Definitions used in the statements -/

/-- The name before the truncation of line 113: the result of lines 109-112. -/
def trimmedName (s : JSString) : JSString :=
  trimUnderscores (collapseUnderscores (collapseWhitespace (replaceUnsafe s)))

/-- The number denoted by a string of decimal digits. -/
def decimalValue (s : JSString) : Nat :=
  s.foldl (fun acc c => 10 * acc + (c - 48)) 0

/-- The code unit is one of the digits `0`-`9`. -/
def isDigit (c : CodeUnit) : Bool :=
  48 ≤ c && c ≤ 57

/-- Every message is an object that conforms to the data model. -/
def messagesWellFormed (messages : List (Option Message)) : Prop :=
  ∀ x ∈ messages, ∃ m, x = some m ∧ m.wellFormed = true

/-- A conversation with the given name and messages, its other fields missing. -/
def conversationOf (name : Val) (messages : ListField (Option Message)) : Conversation :=
  ⟨name, Val.undef, Val.undef, Val.undef, messages⟩

/-- A message from `human` whose only body source is the field `text: "hello"`. -/
def textOnlyMessage : Message :=
  ⟨Val.str (lit "human"), Val.undef, ListField.falsy, Val.str (lit "hello"), ListField.falsy,
    ListField.falsy⟩

/-- A message whose content holds one block of type `tool_use` and whose field `text` is
`"hello"`. -/
def toolMessage : Message :=
  ⟨Val.str (lit "assistant"), Val.undef,
    ListField.arr [some ⟨Val.str (lit "tool_use"), Val.undef⟩], Val.str (lit "hello"),
    ListField.falsy, ListField.falsy⟩

/-- The texts of the blocks whose type is `"text"` and whose text is non-empty, in order. -/
def textBlockTexts (blocks : List ContentBlock) : List JSString :=
  blocks.filterMap (fun b =>
    if b.type = Val.str (lit "text") ∧ b.text.truthy then some b.text.joinStr else none)

/-- The attachment `a.py` of one byte with `file_type: "constructor"`. -/
def inheritedKeyAttachment : Attachment :=
  ⟨Val.str (lit "a.py"), Val.num (lit "1"), Val.str (lit "constructor"), Val.str (lit "x")⟩

/-- The name is usable by line 140: a string, or a falsy value (replaced by the
placeholder). -/
def usableName (name : Val) : Prop :=
  name.isStr = true ∨ name.truthy = false

/-- The writes contributed by one position: its own write when it is performed, none
when the rendering, the naming or the write throws. -/
def writesAt (h : Host) (index : Nat) (conversation : Option Conversation) : List Write :=
  match writeAt h index conversation with
  | Except.ok w => [w]
  | Except.error _ => []

/-- The content of the last write to `name` in a sequence of writes, if there is one. -/
def lastWrite (name : JSString) : List Write → Option JSString
  | [] => none
  | w :: ws =>
    match lastWrite name ws with
    | some content => some content
    | none => if name = w.1 then some w.2 else none

/-- A project named `P` with the prompt template `Be brief.`, no description and no
`docs` field. -/
def templateProject : Project :=
  ⟨Val.str (lit "P"), Val.undef, Val.undef, Val.bool false, Val.str (lit "u"), Val.undef,
    Val.str (lit "Be brief."), ListField.falsy⟩

/-- The language tag of a project document as the spec words it: `markdown` for the
extension `md`, else the extension when it is non-empty, else `text`. -/
def docTag (extension : JSString) : JSString :=
  if extension = lit "md" then lit "markdown"
  else if extension = [] then lit "text"
  else extension

/-- The summary segment of an attachment (line 76). -/
def attachmentSummary (a : Attachment) : JSString :=
  lit "<summary>" ++ a.file_name.toStr ++ lit " (" ++ a.file_size.toStr ++ lit " bytes, " ++
    a.file_type.toStr ++ lit ")</summary>"

/-- The segments of one attachment as the spec words them: `<details>`, the summary, a
fenced code block (empty segment, opening fence, the extracted content, closing fence)
exactly when there is extracted content, and `</details>`. -/
def attachmentBlock (h : Host) (a : Attachment) : List JSString :=
  [lit "<details>", attachmentSummary a] ++
    (if a.extracted_content.truthy then
      [ lit "",
        lit "```" ++ (attachmentLanguage h a.file_name.toStr a.file_type).toStr,
        a.extracted_content.joinStr,
        lit "```" ]
     else []) ++
    [lit "</details>"]

/-- The extracted content of the attachment is not, as a whole, one of the two markup
segments `<details>` and `</details>`. -/
def contentIsNotMarkup (a : Attachment) : Prop :=
  a.extracted_content.joinStr ≠ lit "<details>" ∧
    a.extracted_content.joinStr ≠ lit "</details>"

/-- A message from `human` with the attachment `a.txt` and a file reference to the same
`a.txt`. -/
def duplicateFileMessage : Message :=
  ⟨Val.str (lit "human"), Val.undef, ListField.falsy, Val.undef,
    ListField.arr [some ⟨Val.str (lit "a.txt"), Val.num (lit "1"), Val.str (lit "text/plain"),
      Val.undef⟩],
    ListField.arr [some ⟨Val.str (lit "a.txt")⟩]⟩

/-- The section of a message `m` is the segment list `s`: it is what the callback
returns for `m`, it starts with the sender header of `m` and ends with the rule `---`. -/
def IsSectionOf (h : Host) (m : Option Message) (s : List JSString) : Prop :=
  renderMessage h m = Except.ok s ∧
    ∃ m' header rest, m = some m' ∧ senderHeader h m'.sender = Except.ok header ∧
      s = header :: (rest ++ [lit "---"])

/-- A conversation without `chat_messages` whose name is `a`, U+0000, `b` (the JSON
text `"a\u0000b"`). -/
def nulNameConversation : Conversation :=
  conversationOf (Val.str [97, 0, 98]) ListField.falsy

/-- The segments of one project document as the spec words them: the filename heading,
the creation line, an empty segment, the opening fence with its language tag, the
content, the closing fence and an empty segment. -/
def docBlock (h : Host) (d : Doc) : List JSString :=
  [ lit "#### " ++ d.filename.toStr,
    lit "*Created: " ++ h.dateLocale d.created_at ++ lit "*",
    lit "",
    lit "```" ++ docTag ((h.toLowerCase (h.extname d.filename.toStr)).drop 1),
    d.content.joinStr,
    lit "```",
    lit "" ]

/-- The text of one project document in the rendered document: the lines of its block,
each followed by a line break. -/
def docText (h : Host) (d : Doc) : JSString :=
  lit "#### " ++ d.filename.toStr ++ lit "\n" ++
    (lit "*Created: " ++ h.dateLocale d.created_at ++ lit "*") ++ lit "\n" ++ lit "\n" ++
    (lit "```" ++ docTag ((h.toLowerCase (h.extname d.filename.toStr)).drop 1)) ++ lit "\n" ++
    d.content.joinStr ++ lit "\n" ++ lit "```" ++ lit "\n"

/-- A project named `P` with the documents `README.MD` and `Makefile`. -/
def documentedProject : Project :=
  ⟨Val.str (lit "P"), Val.undef, Val.undef, Val.bool false, Val.str (lit "u"), Val.undef,
    Val.undef,
    ListField.arr [some ⟨Val.str (lit "README.MD"), Val.undef, Val.str (lit "x")⟩,
      some ⟨Val.str (lit "Makefile"), Val.undef, Val.str (lit "all:")⟩]⟩

/-! ## Properties of sanitizeFilename -/

/-- Two adjacent code units are not both underscores. -/
def NotBothUnderscore (a b : CodeUnit) : Prop :=
  ¬ (a = underscore ∧ b = underscore)

theorem mem_replaceRuns {p : CodeUnit → Bool} {c : CodeUnit} :
    ∀ (inRun : Bool) (s : JSString), c ∈ replaceRuns p inRun s →
      c = underscore ∨ (c ∈ s ∧ p c = false) := by
  intro inRun s
  induction s generalizing inRun with
  | nil => intro hc; simp [replaceRuns] at hc
  | cons d ds ih =>
    intro hc
    unfold replaceRuns at hc
    by_cases hp : p d = true
    · rw [if_pos hp] at hc
      cases inRun with
      | true =>
        simp only [if_true] at hc
        rcases ih true hc with h1 | h1
        · exact Or.inl h1
        · exact Or.inr ⟨List.mem_cons_of_mem _ h1.1, h1.2⟩
      | false =>
        simp only [Bool.false_eq_true, if_false, List.mem_cons] at hc
        rcases hc with h0 | h0
        · exact Or.inl h0
        · rcases ih true h0 with h1 | h1
          · exact Or.inl h1
          · exact Or.inr ⟨List.mem_cons_of_mem _ h1.1, h1.2⟩
    · rw [if_neg hp, List.mem_cons] at hc
      rcases hc with h0 | h0
      · subst h0
        exact Or.inr ⟨List.mem_cons_self _ _, by simpa using hp⟩
      · rcases ih false h0 with h1 | h1
        · exact Or.inl h1
        · exact Or.inr ⟨List.mem_cons_of_mem _ h1.1, h1.2⟩

theorem replaceRuns_underscore_chain :
    ∀ (s : JSString),
      (List.Chain' NotBothUnderscore (replaceRuns (fun c => c == underscore) true s) ∧
        (replaceRuns (fun c => c == underscore) true s).head? ≠ some underscore) ∧
      List.Chain' NotBothUnderscore (replaceRuns (fun c => c == underscore) false s) := by
  intro s
  induction s with
  | nil => simp [replaceRuns]
  | cons d ds ih =>
    obtain ⟨⟨ihT, ihH⟩, ihF⟩ := ih
    by_cases hd : d = underscore
    · subst hd
      refine ⟨⟨?_, ?_⟩, ?_⟩
      · simpa [replaceRuns] using ihT
      · simpa [replaceRuns] using ihH
      · simp only [replaceRuns, beq_self_eq_true, if_true, Bool.false_eq_true, if_false]
        rw [List.chain'_cons']
        refine ⟨?_, ihT⟩
        intro y hy h2
        exact ihH (by rw [hy, h2.2])
    · have hb : (d == underscore) = false := by simpa using hd
      refine ⟨⟨?_, ?_⟩, ?_⟩
      · simp only [replaceRuns, hb, Bool.false_eq_true, if_false]
        rw [List.chain'_cons']
        exact ⟨fun y _ h2 => hd h2.1, ihF⟩
      · simp only [replaceRuns, hb, Bool.false_eq_true, if_false, List.head?_cons]
        intro h2
        exact hd (Option.some.inj h2)
      · simp only [replaceRuns, hb, Bool.false_eq_true, if_false]
        rw [List.chain'_cons']
        exact ⟨fun y _ h2 => hd h2.1, ihF⟩

theorem dropLeadingUnderscore_final (s : JSString) : dropLeadingUnderscore s <:+ s := by
  cases s with
  | nil => exact List.suffix_refl _
  | cons c cs =>
    simp only [dropLeadingUnderscore]
    split_ifs
    · exact List.suffix_cons _ _
    · exact List.suffix_refl _

theorem dropTrailingUnderscore_initial : ∀ (s : JSString), dropTrailingUnderscore s <+: s
  | [] => List.prefix_refl _
  | [c] => by
    simp only [dropTrailingUnderscore]
    split_ifs
    · exact List.nil_prefix
    · exact List.prefix_refl _
  | c :: d :: cs => by
    unfold dropTrailingUnderscore
    exact (List.prefix_cons_inj c).2 (dropTrailingUnderscore_initial (d :: cs))

theorem trimUnderscores_segment (s : JSString) : trimUnderscores s <:+: s :=
  List.IsInfix.trans (dropTrailingUnderscore_initial _).isInfix
    (dropLeadingUnderscore_final s).isInfix

theorem sanitizeFilename_segment (s : JSString) :
    sanitizeFilename s <:+: collapseUnderscores (collapseWhitespace (replaceUnsafe s)) :=
  List.IsInfix.trans (List.take_prefix _ _).isInfix (trimUnderscores_segment _)

theorem isUnsafeChar_of_mem_replaceUnsafe {s : JSString} {c : CodeUnit}
    (hc : c ∈ replaceUnsafe s) : isUnsafeChar c = false := by
  unfold replaceUnsafe at hc
  rcases List.mem_map.1 hc with ⟨d, _, hd⟩
  by_cases hu : isUnsafeChar d = true
  · rw [if_pos hu] at hd
    subst hd
    decide
  · rw [if_neg hu] at hd
    subst hd
    simpa using hu

theorem sanitizeFilename_chain (s : JSString) :
    List.Chain' NotBothUnderscore (sanitizeFilename s) :=
  List.Chain'.infix (replaceRuns_underscore_chain _).2 (sanitizeFilename_segment s)

/-- C1. For every input string, the result of `sanitizeFilename` contains none of the
filesystem-unsafe characters `< > : " / \ | ? *`, contains no whitespace character,
contains no two consecutive underscores, and has length at most 200. -/
theorem sanitizeFilename_safe (s : JSString) :
    (∀ c ∈ sanitizeFilename s, isUnsafeChar c = false ∧ isWhitespace c = false) ∧
    ¬ ([underscore, underscore] <:+: sanitizeFilename s) ∧
    (sanitizeFilename s).length ≤ 200 := by
  refine ⟨?_, ?_, ?_⟩
  · intro c hc
    have h1 : c ∈ collapseUnderscores (collapseWhitespace (replaceUnsafe s)) :=
      (sanitizeFilename_segment s).subset hc
    rcases mem_replaceRuns false _ h1 with h2 | ⟨h2, _⟩
    · subst h2
      exact ⟨by decide, by decide⟩
    · rcases mem_replaceRuns false _ h2 with h3 | ⟨h3, h4⟩
      · subst h3
        exact ⟨by decide, by decide⟩
      · exact ⟨isUnsafeChar_of_mem_replaceUnsafe h3, h4⟩
  · intro hinf
    have h2 : List.Chain' NotBothUnderscore [underscore, underscore] :=
      List.Chain'.infix (sanitizeFilename_chain s) hinf
    rw [List.chain'_pair] at h2
    exact h2 ⟨rfl, rfl⟩
  · unfold sanitizeFilename
    exact List.length_take_le _ _

theorem head?_of_initial {l₁ l₂ : JSString} {a : CodeUnit} (hp : l₁ <+: l₂)
    (h : l₁.head? = some a) : l₂.head? = some a := by
  obtain ⟨t, rfl⟩ := hp
  cases l₁ with
  | nil => simp at h
  | cons b bs => simpa using h

theorem dropLeadingUnderscore_head {x : JSString} (hx : List.Chain' NotBothUnderscore x) :
    (dropLeadingUnderscore x).head? ≠ some underscore := by
  cases x with
  | nil => simp [dropLeadingUnderscore]
  | cons c cs =>
    simp only [dropLeadingUnderscore]
    split_ifs with hc
    · have hc' : c = underscore := by simpa using hc
      intro hh
      rw [List.chain'_cons'] at hx
      exact hx.1 _ hh ⟨hc', rfl⟩
    · intro hh
      apply hc
      simpa using hh

theorem dropTrailingUnderscore_eq_nil : ∀ {y : JSString},
    dropTrailingUnderscore y = [] → y = [] ∨ y = [underscore]
  | [], _ => Or.inl rfl
  | [c], h => by
    simp only [dropTrailingUnderscore] at h
    split_ifs at h with hc
    right
    have hc' : c = underscore := by simpa using hc
    rw [hc']
  | c :: d :: cs, h => by simp [dropTrailingUnderscore] at h

theorem dropTrailingUnderscore_getLast : ∀ {y : JSString},
    List.Chain' NotBothUnderscore y →
      (dropTrailingUnderscore y).getLast? ≠ some underscore
  | [], _ => by simp [dropTrailingUnderscore]
  | [c], _ => by
    simp only [dropTrailingUnderscore]
    split_ifs with hc
    · simp
    · intro hh
      apply hc
      simpa using hh
  | c :: d :: cs, hy => by
    have htail : List.Chain' NotBothUnderscore (d :: cs) := hy.tail
    have ih := dropTrailingUnderscore_getLast htail
    simp only [dropTrailingUnderscore]
    cases hw : dropTrailingUnderscore (d :: cs) with
    | nil =>
      rcases dropTrailingUnderscore_eq_nil hw with h0 | h0
      · exact absurd h0 (by simp)
      · have hd : d = underscore := by
          have := List.cons.inj h0
          exact this.1
        intro hh
        have hc : c = underscore := by simpa using hh
        rw [List.chain'_cons] at hy
        exact hy.1 ⟨hc, hd⟩
    | cons w ws =>
      rw [hw] at ih
      rw [List.getLast?_cons_cons]
      exact ih

set_option maxRecDepth 100000 in
/-- C2, counterexample. A name of 199 letters `a` followed by `_b` is cut after its 200th
code unit, the underscore, which no later step removes. -/
theorem sanitizeFilename_trailing_underscore :
    sanitizeFilename (List.replicate 199 97 ++ lit "_b") = List.replicate 199 97 ++ lit "_" ∧
    (sanitizeFilename (List.replicate 199 97 ++ lit "_b")).getLast? = some underscore := by
  decide

/-- C2, amended. For every input string the result of `sanitizeFilename` does not begin
with an underscore, and it does not end with an underscore whenever the name fits in 200
code units after lines 109-112, that is whenever line 113 truncates nothing. -/
theorem sanitizeFilename_trimmed (s : JSString) :
    (sanitizeFilename s).head? ≠ some underscore ∧
    ((trimmedName s).length ≤ 200 → (sanitizeFilename s).getLast? ≠ some underscore) := by
  have hx : List.Chain' NotBothUnderscore
      (collapseUnderscores (collapseWhitespace (replaceUnsafe s))) :=
    (replaceRuns_underscore_chain _).2
  refine ⟨?_, ?_⟩
  · intro hh
    have h1 : (trimmedName s).head? = some underscore :=
      head?_of_initial (List.take_prefix 200 _) hh
    have h2 := head?_of_initial (dropTrailingUnderscore_initial _) h1
    exact dropLeadingUnderscore_head hx h2
  · intro hlen
    have htake : sanitizeFilename s = trimmedName s := List.take_of_length_le hlen
    rw [htake]
    exact dropTrailingUnderscore_getLast
      (List.Chain'.suffix hx (dropLeadingUnderscore_final _))

/-- C2, amended, at the name `_a b_`. -/
theorem sanitizeFilename_trimmed_witness :
    (sanitizeFilename (lit "_a b_")).head? ≠ some underscore ∧
    (sanitizeFilename (lit "_a b_")).getLast? ≠ some underscore :=
  ⟨(sanitizeFilename_trimmed (lit "_a b_")).1,
   (sanitizeFilename_trimmed (lit "_a b_")).2 (by decide)⟩

/-! ## Properties of the conversation renderer -/

theorem forEachPush_cons {α : Type} (f : α → Except JSError (List JSString)) (x : α)
    (xs : List α) :
    forEachPush f (x :: xs) =
      match f x with
      | Except.error e => Except.error e
      | Except.ok a =>
        match forEachPush f xs with
        | Except.error e => Except.error e
        | Except.ok b => Except.ok (a ++ b) := by
  simp only [forEachPush, bind, Except.bind, pure, Except.pure]
  cases f x with
  | error e => rfl
  | ok a =>
    cases forEachPush f xs with
    | error e => rfl
    | ok b => rfl

/-- When the loop completes, every item was rendered and its segments are among the
segments pushed by the loop. -/
theorem forEachPush_mem {α : Type} {f : α → Except JSError (List JSString)} :
    ∀ {xs : List α} {bits : List JSString}, forEachPush f xs = Except.ok bits →
      ∀ x ∈ xs, ∃ b, f x = Except.ok b ∧ ∀ seg ∈ b, seg ∈ bits := by
  intro xs
  induction xs with
  | nil => intro bits _ x hx; simp at hx
  | cons y ys ih =>
    intro bits hbits x hx
    rw [forEachPush_cons] at hbits
    cases hy : f y with
    | error e => simp [hy] at hbits
    | ok a =>
      cases hys : forEachPush f ys with
      | error e => simp [hy, hys] at hbits
      | ok b =>
        simp only [hy, hys, Except.ok.injEq] at hbits
        subst hbits
        rcases List.mem_cons.1 hx with h0 | h0
        · subst h0
          exact ⟨a, hy, fun seg hs => List.mem_append_left _ hs⟩
        · obtain ⟨b', hb', hsub⟩ := ih hys x h0
          exact ⟨b', hb', fun seg hs => List.mem_append_right _ (hsub seg hs)⟩

/-- The loop completes when the callback returns on every item. -/
theorem forEachPush_ok {α : Type} {f : α → Except JSError (List JSString)} :
    ∀ {xs : List α}, (∀ x ∈ xs, ∃ b, f x = Except.ok b) →
      ∃ bits, forEachPush f xs = Except.ok bits := by
  intro xs
  induction xs with
  | nil => intro _; exact ⟨[], rfl⟩
  | cons y ys ih =>
    intro hall
    obtain ⟨a, ha⟩ := hall y (List.mem_cons_self _ _)
    obtain ⟨b, hb⟩ := ih (fun x hx => hall x (List.mem_cons_of_mem _ hx))
    exact ⟨a ++ b, by rw [forEachPush_cons, ha, hb]⟩

theorem joinWith_cons_ne_nil (sep : JSString) {x : JSString} (hx : x ≠ [])
    (rest : List JSString) : joinWith sep (x :: rest) ≠ [] := by
  cases rest with
  | nil => simpa [joinWith] using hx
  | cons y ys => simp [joinWith, hx]

/-- Every joined segment occurs in the joined text as a contiguous substring. -/
theorem infix_joinWith (sep : JSString) :
    ∀ {bits : List JSString} {seg : JSString}, seg ∈ bits → seg <:+: joinWith sep bits
  | [], _, h => by simp at h
  | [x], seg, h => by
    have : seg = x := by simpa using h
    subst this
    exact List.infix_refl _
  | x :: y :: rest, seg, h => by
    simp only [joinWith]
    rcases List.mem_cons.1 h with h0 | h0
    · subst h0
      rw [List.append_assoc]
      exact (List.prefix_append _ _).isInfix
    · exact List.IsInfix.trans (infix_joinWith sep h0) (List.suffix_append _ _).isInfix

/-! ## Properties of the index numeral -/

theorem numberToString_lt_ten {n : Nat} (hn : n < 10) : numberToString n = [48 + n] := by
  simp [numberToString, digitsFuel, hn]

theorem digitsFuel_eq (n : Nat) :
    ∀ (fuel : Nat) (acc : JSString), n < fuel →
      digitsFuel fuel n acc = numberToString n ++ acc := by
  induction n using Nat.strong_induction_on with
  | _ n ih =>
    intro fuel acc hfuel
    cases fuel with
    | zero => omega
    | succ f =>
      by_cases hn : n < 10
      · rw [numberToString_lt_ten hn]
        simp [digitsFuel, hn]
      · have hdiv : n / 10 < n := by omega
        have h1 : digitsFuel (f + 1) n acc =
            digitsFuel f (n / 10) ((48 + n % 10) :: acc) := by
          simp [digitsFuel, hn]
        have h2 : numberToString n = digitsFuel n (n / 10) [48 + n % 10] := by
          simp [numberToString, digitsFuel, hn]
        rw [h1, h2, ih (n / 10) hdiv f _ (by omega), ih (n / 10) hdiv n _ hdiv]
        simp

theorem numberToString_ge_ten {n : Nat} (hn : 10 ≤ n) :
    numberToString n = numberToString (n / 10) ++ [48 + n % 10] := by
  have h2 : numberToString n = digitsFuel n (n / 10) [48 + n % 10] := by
    simp [numberToString, digitsFuel, Nat.not_lt.2 hn]
  rw [h2, digitsFuel_eq (n / 10) n _ (by omega)]

theorem decimalValue_append_singleton (s : JSString) (c : CodeUnit) :
    decimalValue (s ++ [c]) = 10 * decimalValue s + (c - 48) := by
  simp [decimalValue, List.foldl_append]

theorem numberToString_spec (n : Nat) :
    decimalValue (numberToString n) = n ∧ (∀ c ∈ numberToString n, isDigit c = true) ∧
      (n < 1000 → (numberToString n).length ≤ 3) ∧
      (1000 ≤ n → 4 ≤ (numberToString n).length) ∧
      (1 ≤ n → ∃ (d : Nat) (tl : List Nat), numberToString n = d :: tl ∧ 49 ≤ d ∧ d ≤ 57) := by
  induction n using Nat.strong_induction_on with
  | _ n ih =>
    by_cases hn : n < 10
    · rw [numberToString_lt_ten hn]
      refine ⟨by simp [decimalValue], ?_, by simp, by omega, ?_⟩
      · intro c hc
        have : c = 48 + n := by simpa using hc
        subst this
        have h57 : 48 + n ≤ 57 := by omega
        simpa [isDigit] using h57
      · intro h1
        have h49 : 49 ≤ 48 + n := by omega
        have h57 : 48 + n ≤ 57 := by omega
        exact ⟨48 + n, [], rfl, h49, h57⟩
    · have hge : 10 ≤ n := Nat.not_lt.1 hn
      obtain ⟨hv, hd, hlen3, hlen4, hlead⟩ := ih (n / 10) (by omega)
      rw [numberToString_ge_ten hge]
      refine ⟨?_, ?_, ?_, ?_, ?_⟩
      · rw [decimalValue_append_singleton, hv]
        omega
      · intro c hc
        rcases List.mem_append.1 hc with h0 | h0
        · exact hd c h0
        · have : c = 48 + n % 10 := by simpa using h0
          subst this
          have h57 : 48 + n % 10 ≤ 57 := by omega
          simpa [isDigit] using h57
      · intro hlt
        by_cases h100 : n / 10 < 10
        · rw [numberToString_lt_ten h100]
          simp
        · have hge2 : 10 ≤ n / 10 := Nat.not_lt.1 h100
          rw [numberToString_ge_ten hge2]
          have h3 : n / 10 / 10 < 10 := by omega
          rw [numberToString_lt_ten h3]
          simp
      · intro hge4
        by_cases h1000 : 1000 ≤ n / 10
        · have := hlen4 h1000
          simp
          omega
        · have hge2 : 10 ≤ n / 10 := by omega
          rw [numberToString_ge_ten hge2]
          have hge3 : 10 ≤ n / 10 / 10 := by omega
          rw [numberToString_ge_ten hge3]
          have hpos : 0 < (numberToString (n / 10 / 10 / 10)).length := by
            obtain ⟨_, _, _, _, hl⟩ := ih (n / 10 / 10 / 10) (by omega)
            obtain ⟨d, tl, hdt, _⟩ := hl (by omega)
            rw [hdt]
            simp
          simp
          omega
      · intro _
        obtain ⟨d, tl, hdt, h49, h57⟩ := hlead (by omega)
        exact ⟨d, tl ++ [48 + n % 10], by rw [hdt]; rfl, h49, h57⟩

theorem decimalValue_replicate_zero_append (k : Nat) (s : JSString) :
    decimalValue (List.replicate k 48 ++ s) = decimalValue s := by
  have hz : ∀ k : Nat, List.foldl (fun acc c => 10 * acc + (c - 48)) 0 (List.replicate k 48) = 0 := by
    intro k
    induction k with
    | zero => rfl
    | succ k ih => simpa [List.replicate_succ] using ih
  simp [decimalValue, List.foldl_append, hz]

/-- The index part of a filename: all digits, of value `n`, of length 3 up to 999 and
the unpadded numeral from 1000 on. -/
theorem padStart3_numberToString (n : Nat) :
    (∀ c ∈ padStart3 (numberToString n), isDigit c = true) ∧
    decimalValue (padStart3 (numberToString n)) = n ∧
    (n < 1000 → (padStart3 (numberToString n)).length = 3) ∧
    (1000 ≤ n → padStart3 (numberToString n) = numberToString n ∧
      4 ≤ (padStart3 (numberToString n)).length) := by
  obtain ⟨hv, hd, hlen3, hlen4, _⟩ := numberToString_spec n
  refine ⟨?_, ?_, ?_, ?_⟩
  · intro c hc
    rcases List.mem_append.1 hc with h0 | h0
    · have : c = 48 := (List.mem_replicate.1 h0).2
      subst this
      decide
    · exact hd c h0
  · unfold padStart3
    rw [decimalValue_replicate_zero_append, hv]
  · intro hlt
    have := hlen3 hlt
    simp [padStart3]
    omega
  · intro hge
    have h4 := hlen4 hge
    have hpad : padStart3 (numberToString n) = numberToString n := by
      unfold padStart3
      have : 3 - (numberToString n).length = 0 := by omega
      rw [this]
      rfl
    rw [hpad]
    exact ⟨rfl, h4⟩

/-! ## Properties of the orchestrator -/

theorem convertAt_ok {h : Host} {index : Nat} {conversation : Option Conversation}
    {w : Write} (hw : convertAt h index conversation = Except.ok w) :
    ∃ c s, conversation = some c ∧ nameOrPlaceholder c.name index = Val.str s ∧
      w.1 = outputFilename index (sanitizeFilename s) ∧
      convertClaudeJsonToMarkdown h conversation = Except.ok w.2 := by
  unfold convertAt at hw
  cases hmd : convertClaudeJsonToMarkdown h conversation with
  | error e => simp [hmd, bind, Except.bind] at hw
  | ok markdown =>
    cases conversation with
    | none => simp [convertClaudeJsonToMarkdown, throw, throwThe, MonadExceptOf.throw] at hmd
    | some c =>
      simp only [hmd, bind, Except.bind, sanitizeFilenameCall] at hw
      cases hname : nameOrPlaceholder c.name index with
      | str s =>
        simp only [hname, Val.asString, pure, Except.pure, Except.ok.injEq] at hw
        subst hw
        exact ⟨c, s, rfl, hname, rfl, rfl⟩
      | undef => simp [hname, Val.asString, throw, throwThe, MonadExceptOf.throw] at hw
      | null => simp [hname, Val.asString, throw, throwThe, MonadExceptOf.throw] at hw
      | bool b => simp [hname, Val.asString, throw, throwThe, MonadExceptOf.throw] at hw
      | num t => simp [hname, Val.asString, throw, throwThe, MonadExceptOf.throw] at hw
      | obj t => simp [hname, Val.asString, throw, throwThe, MonadExceptOf.throw] at hw

theorem writeAt_of_error {h : Host} {index : Nat} {conversation : Option Conversation}
    {e : JSError} (he : convertAt h index conversation = Except.error e) :
    writeAt h index conversation = Except.error e := by
  simp only [writeAt, he, bind, Except.bind]

theorem writeAt_of_ok {h : Host} {index : Nat} {conversation : Option Conversation}
    {w : Write} (hw : convertAt h index conversation = Except.ok w) :
    writeAt h index conversation =
      if writeSucceeds h w then Except.ok w else Except.error JSError.systemError := by
  simp only [writeAt, hw, bind, Except.bind]
  split_ifs <;> rfl

theorem writeAt_ok {h : Host} {index : Nat} {conversation : Option Conversation}
    {w : Write} (hw : writeAt h index conversation = Except.ok w) :
    convertAt h index conversation = Except.ok w ∧ writeSucceeds h w = true := by
  cases hc : convertAt h index conversation with
  | error e => rw [writeAt_of_error hc] at hw; exact absurd hw (by simp)
  | ok w0 =>
    rw [writeAt_of_ok hc] at hw
    by_cases hs : writeSucceeds h w0 = true
    · rw [if_pos hs] at hw
      have hw0 : w0 = w := Except.ok.inj hw
      rw [← hw0]
      exact ⟨rfl, hs⟩
    · rw [if_neg hs] at hw
      exact absurd hw (by simp)

theorem mem_convertConversations {h : Host} {w : Write} :
    ∀ (conversations : List (Option Conversation)) (start : Nat),
      w ∈ convertConversations h start conversations →
      ∃ index conversation, convertAt h index conversation = Except.ok w := by
  intro conversations
  induction conversations with
  | nil => intro start hw; simp [convertConversations] at hw
  | cons c rest ih =>
    intro start hw
    unfold convertConversations at hw
    cases hc : writeAt h start c with
    | error e =>
      simp only [hc] at hw
      exact ih (start + 1) hw
    | ok w0 =>
      simp only [hc, List.mem_cons] at hw
      rcases hw with h0 | h0
      · subst h0
        exact ⟨start, c, (writeAt_ok hc).1⟩
      · exact ih (start + 1) h0

theorem strLt_irrefl : ∀ (s : JSString), strLt s s = false
  | [] => rfl
  | c :: cs => by simp [strLt, strLt_irrefl cs]

theorem projects_lt_outputFilename (index : Nat) (baseName : JSString) :
    strLt (lit "000_projects.md") (outputFilename index baseName) = true := by
  obtain ⟨_, _, hlen3, _, hlead⟩ := numberToString_spec (index + 1)
  obtain ⟨d, tl, hdt, h49, _⟩ := hlead (by omega)
  have hP : lit "000_projects.md" = 48 :: 48 :: 48 :: lit "_projects.md" := by decide
  have hd : 48 < d := by omega
  have hne : ¬ d < 48 := by omega
  unfold outputFilename padStart3
  rw [hdt, hP]
  match tl with
  | [] => simp [strLt, List.replicate, hd]
  | [_] => simp [strLt, List.replicate, hd]
  | _ :: _ :: _ => simp [strLt, List.replicate, hd]

/-! ## Rendering of inputs that conform to the data model -/

theorem wellFormed_arr {α : Type} {ok : α → Bool} {items : List (Option α)}
    (hwf : (ListField.arr items).wellFormed ok = true) :
    ∀ x ∈ items, ∃ a, x = some a ∧ ok a = true := by
  intro x hx
  simp only [ListField.wellFormed, List.all_eq_true] at hwf
  have hx' := hwf x hx
  cases x with
  | none => simp at hx'
  | some a => exact ⟨a, rfl, hx'⟩

theorem renderContentBlock_some (c : ContentBlock) :
    ∃ b, renderContentBlock (some c) = Except.ok b := by
  simp only [renderContentBlock]
  split_ifs
  · exact ⟨_, rfl⟩
  · exact ⟨_, rfl⟩

theorem renderBody_ok {content : ListField (Option ContentBlock)} (text : Val)
    (hwf : content.wellFormed (fun _ => true) = true) :
    ∃ b, renderBody content text = Except.ok b := by
  have htext : ∃ b, (if text.truthy = true then (pure [text.joinStr] : Except JSError _)
      else pure []) = Except.ok b := by
    split_ifs
    · exact ⟨_, rfl⟩
    · exact ⟨_, rfl⟩
  cases content with
  | falsy => simpa [renderBody] using htext
  | nonArray b => simp [ListField.wellFormed] at hwf
  | arr items =>
    cases items with
    | nil => simpa [renderBody] using htext
    | cons c cs =>
      simp only [renderBody]
      apply forEachPush_ok
      intro x hx
      obtain ⟨a, rfl, _⟩ := wellFormed_arr hwf x hx
      exact renderContentBlock_some a

theorem renderAttachment_ok (h : Host) {a : Attachment} (hwf : a.wellFormed = true) :
    ∃ b, renderAttachment h (some a) = Except.ok b := by
  unfold Attachment.wellFormed at hwf
  cases hn : a.file_name with
  | str s =>
    simp only [renderAttachment, hn, Val.asString, bind, Except.bind, pure, Except.pure]
    split_ifs
    · exact ⟨_, rfl⟩
    · exact ⟨_, rfl⟩
  | undef => simp [hn, Val.isStr] at hwf
  | null => simp [hn, Val.isStr] at hwf
  | bool b => simp [hn, Val.isStr] at hwf
  | num t => simp [hn, Val.isStr] at hwf
  | obj t => simp [hn, Val.isStr] at hwf

theorem renderAttachments_ok (h : Host) {attachments : ListField (Option Attachment)}
    (hwf : attachments.wellFormed Attachment.wellFormed = true) :
    ∃ b, renderAttachments h attachments = Except.ok b := by
  cases attachments with
  | falsy => exact ⟨_, rfl⟩
  | nonArray b => simp [ListField.wellFormed] at hwf
  | arr items =>
    cases items with
    | nil => exact ⟨_, rfl⟩
    | cons c cs =>
      have hloop : ∃ b, forEachPush (renderAttachment h) (c :: cs) = Except.ok b := by
        apply forEachPush_ok
        intro x hx
        obtain ⟨a, rfl, ha⟩ := wellFormed_arr hwf x hx
        exact renderAttachment_ok h ha
      obtain ⟨b, hb⟩ := hloop
      exact ⟨lit "### 📎 Attachments" :: b,
        by simp only [renderAttachments, hb, bind, Except.bind, pure, Except.pure]⟩

theorem renderFiles_ok {files : ListField (Option FileRef)}
    (hwf : files.wellFormed (fun _ => true) = true) :
    ∃ b, renderFiles files = Except.ok b := by
  cases files with
  | falsy => exact ⟨_, rfl⟩
  | nonArray b => simp [ListField.wellFormed] at hwf
  | arr items =>
    cases items with
    | nil => exact ⟨_, rfl⟩
    | cons c cs =>
      simp only [renderFiles]
      apply forEachPush_ok
      intro x hx
      obtain ⟨a, rfl, _⟩ := wellFormed_arr hwf x hx
      exact ⟨_, rfl⟩

theorem senderHeader_str (h : Host) (s : JSString) :
    ∃ header, senderHeader h (Val.str s) = Except.ok header :=
  ⟨_, rfl⟩

/-- The segments of a message, given its header and the segments of its body, attachments
and file references. -/
theorem renderMessage_eq (h : Host) {m : Message} {header : JSString}
    {body atts files : List JSString}
    (hs : senderHeader h m.sender = Except.ok header)
    (hb : renderBody m.content m.text = Except.ok body)
    (ha : renderAttachments h m.attachments = Except.ok atts)
    (hf : renderFiles m.files = Except.ok files) :
    renderMessage h (some m) =
      Except.ok ([header, lit "*" ++ h.dateEnUS m.created_at ++ lit "*"] ++ body ++ atts ++
        files ++ [lit "---"]) := by
  simp only [renderMessage, hs, hb, ha, hf, bind, Except.bind, pure, Except.pure]

/-- When a message renders, so did its header, body, attachments and file references. -/
theorem renderMessage_inv (h : Host) {m : Message} {bits : List JSString}
    (hm : renderMessage h (some m) = Except.ok bits) :
    ∃ header body atts files, senderHeader h m.sender = Except.ok header ∧
      renderBody m.content m.text = Except.ok body ∧
      renderAttachments h m.attachments = Except.ok atts ∧
      renderFiles m.files = Except.ok files ∧
      bits = [header, lit "*" ++ h.dateEnUS m.created_at ++ lit "*"] ++ body ++ atts ++
        files ++ [lit "---"] := by
  simp only [renderMessage, bind, Except.bind, pure, Except.pure] at hm
  cases hs : senderHeader h m.sender with
  | error e => simp [hs] at hm
  | ok header =>
    cases hb : renderBody m.content m.text with
    | error e => simp [hs, hb] at hm
    | ok body =>
      cases ha : renderAttachments h m.attachments with
      | error e => simp [hs, hb, ha] at hm
      | ok atts =>
        cases hf : renderFiles m.files with
        | error e => simp [hs, hb, ha, hf] at hm
        | ok files =>
          simp only [hs, hb, ha, hf, Except.ok.injEq] at hm
          exact ⟨header, body, atts, files, rfl, rfl, rfl, rfl, hm.symm⟩

theorem renderMessage_ok (h : Host) {m : Message} (hwf : m.wellFormed = true) :
    ∃ bits, renderMessage h (some m) = Except.ok bits := by
  simp only [Message.wellFormed, Bool.and_eq_true] at hwf
  obtain ⟨⟨⟨hs, hc⟩, ha⟩, hf⟩ := hwf
  obtain ⟨body, hb⟩ := renderBody_ok m.text hc
  obtain ⟨atts, hatts⟩ := renderAttachments_ok h ha
  obtain ⟨files, hfiles⟩ := renderFiles_ok hf
  cases hsender : m.sender with
  | str s =>
    obtain ⟨header, hh⟩ := senderHeader_str h s
    rw [← hsender] at hh
    exact ⟨_, renderMessage_eq h hh hb hatts hfiles⟩
  | undef => simp [hsender, Val.isStr] at hs
  | null => simp [hsender, Val.isStr] at hs
  | bool b => simp [hsender, Val.isStr] at hs
  | num t => simp [hsender, Val.isStr] at hs
  | obj t => simp [hsender, Val.isStr] at hs

theorem convert_arr_ok (h : Host) {c : Conversation} {messages : List (Option Message)}
    (hc : c.chat_messages = ListField.arr messages) (hwf : messagesWellFormed messages) :
    ∃ sections, forEachPush (renderMessage h) messages = Except.ok sections ∧
      convertClaudeJsonToMarkdown h (some c) =
        Except.ok (joinWith (lit "\n\n") (conversationHeader h c ++ sections)) := by
  have hloop : ∃ b, forEachPush (renderMessage h) messages = Except.ok b := by
    apply forEachPush_ok
    intro x hx
    obtain ⟨m, rfl, hm⟩ := hwf x hx
    exact renderMessage_ok h hm
  obtain ⟨b, hb⟩ := hloop
  exact ⟨b, hb, by simp only [convertClaudeJsonToMarkdown, hc, hb, bind, Except.bind, pure,
    Except.pure]⟩

theorem convert_arr_inv (h : Host) {c : Conversation} {messages : List (Option Message)}
    {out : JSString} (hc : c.chat_messages = ListField.arr messages)
    (hout : convertClaudeJsonToMarkdown h (some c) = Except.ok out) :
    ∃ sections, forEachPush (renderMessage h) messages = Except.ok sections ∧
      out = joinWith (lit "\n\n") (conversationHeader h c ++ sections) := by
  simp only [convertClaudeJsonToMarkdown, hc, bind, Except.bind, pure, Except.pure] at hout
  cases hb : forEachPush (renderMessage h) messages with
  | error e => simp [hb] at hout
  | ok b =>
    simp only [hb, Except.ok.injEq] at hout
    exact ⟨b, rfl, hout.symm⟩

theorem joined_conversation_ne_nil (h : Host) (c : Conversation) (sections : List JSString) :
    joinWith (lit "\n\n") (conversationHeader h c ++ sections) ≠ [] := by
  have hhash : lit "# " = 35 :: 32 :: [] := by decide
  unfold conversationHeader
  apply joinWith_cons_ne_nil
  rw [hhash]
  simp

/-! ## The claims about the conversation renderer -/

/-- C3. The function `convertClaudeJsonToMarkdown` returns the empty string exactly when
the conversation has no `chat_messages` (missing, `null` or otherwise falsy); for a
conversation that has a `chat_messages` array, even an empty one, of messages that
conform to the data model, it returns a non-empty string. -/
theorem convert_empty_iff_no_messages (h : Host) (c : Conversation) :
    (convertClaudeJsonToMarkdown h (some c) = Except.ok [] ↔
      c.chat_messages = ListField.falsy) ∧
    (∀ messages, c.chat_messages = ListField.arr messages → messagesWellFormed messages →
      ∃ out, convertClaudeJsonToMarkdown h (some c) = Except.ok out ∧ out ≠ []) := by
  refine ⟨⟨?_, ?_⟩, ?_⟩
  · intro hout
    cases hc : c.chat_messages with
    | falsy => rfl
    | nonArray b =>
      simp [convertClaudeJsonToMarkdown, hc, throw, throwThe, MonadExceptOf.throw] at hout
    | arr messages =>
      obtain ⟨sections, _, hjoin⟩ := convert_arr_inv h hc hout
      exact absurd hjoin.symm (joined_conversation_ne_nil h c sections)
  · intro hc
    simp only [convertClaudeJsonToMarkdown, hc]
    rfl
  · intro messages hc hwf
    obtain ⟨sections, _, hout⟩ := convert_arr_ok h hc hwf
    exact ⟨_, hout, joined_conversation_ne_nil h c sections⟩

/-- C3, at a conversation without `chat_messages` and at one with a single message. -/
theorem convert_empty_iff_no_messages_witness :
    convertClaudeJsonToMarkdown sampleHost (some (conversationOf Val.undef ListField.falsy)) =
      Except.ok [] ∧
    ∃ out, convertClaudeJsonToMarkdown sampleHost
      (some (conversationOf Val.undef (ListField.arr [some textOnlyMessage]))) =
        Except.ok out ∧ out ≠ [] :=
  ⟨(convert_empty_iff_no_messages sampleHost (conversationOf Val.undef ListField.falsy)).1.2 rfl,
   (convert_empty_iff_no_messages sampleHost
      (conversationOf Val.undef (ListField.arr [some textOnlyMessage]))).2
      [some textOnlyMessage] rfl
      (by
        intro x hx
        have hx' : x = some textOnlyMessage := by simpa using hx
        exact ⟨textOnlyMessage, hx', by decide⟩)⟩

theorem renderBody_fallback {content : ListField (Option ContentBlock)} {t : JSString}
    (hcontent : content = ListField.falsy ∨ content = ListField.arr []) (hne : t ≠ []) :
    renderBody content (Val.str t) = Except.ok [t] := by
  have htruthy : (Val.str t).truthy = true := by
    cases t with
    | nil => exact absurd rfl hne
    | cons a as => rfl
  rcases hcontent with h0 | h0
  · subst h0
    simp only [renderBody, htruthy, if_true]
    rfl
  · subst h0
    simp only [renderBody, htruthy, if_true]
    rfl

/-- C7. For every conversation containing a message that has no content array (missing
or empty) and a non-empty `text` field, the text returned by
`convertClaudeJsonToMarkdown` contains that `text` value verbatim as a contiguous
substring; and the function does return when the messages conform to the data model. -/
theorem text_fallback_verbatim (h : Host) (c : Conversation)
    (messages : List (Option Message)) (m : Message) (t : JSString)
    (hc : c.chat_messages = ListField.arr messages) (hm : some m ∈ messages)
    (hcontent : m.content = ListField.falsy ∨ m.content = ListField.arr [])
    (ht : m.text = Val.str t) (hne : t ≠ []) :
    (∀ out, convertClaudeJsonToMarkdown h (some c) = Except.ok out → t <:+: out) ∧
    (messagesWellFormed messages →
      ∃ out, convertClaudeJsonToMarkdown h (some c) = Except.ok out ∧ t <:+: out) := by
  have hall : ∀ out, convertClaudeJsonToMarkdown h (some c) = Except.ok out → t <:+: out := by
    intro out hout
    obtain ⟨sections, hsec, hjoin⟩ := convert_arr_inv h hc hout
    obtain ⟨b, hb, hsub⟩ := forEachPush_mem hsec (some m) hm
    obtain ⟨header, body, atts, files, _, hbody, _, _, hbits⟩ := renderMessage_inv h hb
    rw [ht, renderBody_fallback hcontent hne] at hbody
    have hbody' : body = [t] := (Except.ok.inj hbody).symm
    have htb : t ∈ b := by
      rw [hbits, hbody']
      simp
    rw [hjoin]
    exact infix_joinWith _ (List.mem_append_right _ (hsub t htb))
  refine ⟨hall, ?_⟩
  intro hwf
  obtain ⟨sections, _, hout⟩ := convert_arr_ok h hc hwf
  exact ⟨_, hout, hall _ hout⟩

/-- C7, at a conversation whose single message has only the field `text: "hello"`. -/
theorem text_fallback_verbatim_witness :
    ∃ out, convertClaudeJsonToMarkdown sampleHost
      (some (conversationOf Val.undef (ListField.arr [some textOnlyMessage]))) =
        Except.ok out ∧ lit "hello" <:+: out :=
  (text_fallback_verbatim sampleHost
    (conversationOf Val.undef (ListField.arr [some textOnlyMessage]))
    [some textOnlyMessage] textOnlyMessage (lit "hello") rfl (by simp) (Or.inl rfl) rfl
    (by decide)).2
    (by
      intro x hx
      have hx' : x = some textOnlyMessage := by simpa using hx
      exact ⟨textOnlyMessage, hx', by decide⟩)

set_option maxRecDepth 100000 in
/-- C6, counterexample. A message whose content array holds one block of type `tool_use`
and whose `text` field is `"hello"` renders no body: its segments are the header, the
timestamp and the rule, and `hello` occurs nowhere in the document. -/
theorem body_fallback_skipped :
    renderBody toolMessage.content toolMessage.text = Except.ok [] ∧
    renderMessage sampleHost (some toolMessage) =
      Except.ok [lit "## 🤖 Assistant", lit "*Invalid Date*", lit "---"] ∧
    ∃ out, convertClaudeJsonToMarkdown sampleHost
      (some (conversationOf Val.undef (ListField.arr [some toolMessage]))) = Except.ok out ∧
      ¬ (lit "hello" <:+: out) :=
  ⟨by decide, by decide, _, rfl, by decide⟩

theorem forEachPush_renderContentBlock (blocks : List ContentBlock) :
    forEachPush renderContentBlock (blocks.map some) = Except.ok (textBlockTexts blocks) := by
  induction blocks with
  | nil => rfl
  | cons b bs ih =>
    rw [List.map_cons, forEachPush_cons, ih]
    by_cases hb : b.type = Val.str (lit "text") ∧ b.text.truthy = true
    · simp [renderContentBlock, textBlockTexts, List.filterMap_cons, hb, pure, Except.pure]
    · simp [renderContentBlock, textBlockTexts, List.filterMap_cons, hb, pure, Except.pure]

/-- C6, amended. When the content array is non-empty, the body is the texts of its blocks
of type `"text"` with non-empty text, in order, and nothing else: the `text` field is not
consulted, even when no block qualifies. When the content array is missing or empty, the
body is the `text` field if it is non-empty, and nothing otherwise. -/
theorem renderBody_spec (text : Val) :
    (∀ blocks : List ContentBlock, blocks ≠ [] →
      renderBody (ListField.arr (blocks.map some)) text = Except.ok (textBlockTexts blocks)) ∧
    (∀ content : ListField (Option ContentBlock),
      content = ListField.falsy ∨ content = ListField.arr [] →
      renderBody content text = Except.ok (if text.truthy then [text.joinStr] else [])) := by
  refine ⟨?_, ?_⟩
  · intro blocks hne
    cases blocks with
    | nil => exact absurd rfl hne
    | cons b bs =>
      rw [← forEachPush_renderContentBlock (b :: bs)]
      rfl
  · intro content hcontent
    rcases hcontent with h0 | h0
    · subst h0
      simp only [renderBody]
      split_ifs <;> rfl
    · subst h0
      simp only [renderBody]
      split_ifs <;> rfl

/-- C6, amended, at a content array of one `tool_use` block beside `text: "hello"`, and
at a missing content array beside `text: "hello"`. -/
theorem renderBody_spec_witness :
    renderBody (ListField.arr ([(⟨Val.str (lit "tool_use"), Val.undef⟩ : ContentBlock)].map some))
      (Val.str (lit "hello")) = Except.ok [] ∧
    renderBody ListField.falsy (Val.str (lit "hello")) = Except.ok [lit "hello"] :=
  ⟨(renderBody_spec (Val.str (lit "hello"))).1 [⟨Val.str (lit "tool_use"), Val.undef⟩] (by simp),
   (renderBody_spec (Val.str (lit "hello"))).2 ListField.falsy (Or.inl rfl)⟩

/-! ## The language of an attachment's code fence -/

set_option maxRecDepth 100000 in
/-- C8, the failing input. With `file_type: "constructor"`, which is none of the five
keys of the table, the read `typeLookup[file_type]` finds the member inherited from
`Object.prototype`, a truthy value, so the fence is tagged with the text of that function
and not with the extension `py` of `a.py`. -/
theorem attachment_language_inherited_key :
    renderAttachment sampleHost (some inheritedKeyAttachment) =
      Except.ok [ lit "<details>",
                  lit "<summary>a.py (1 bytes, constructor)</summary>",
                  lit "",
                  lit "```function Object() \x7b [native code] \x7d",
                  lit "x",
                  lit "```",
                  lit "</details>" ] ∧
    (sampleHost.toLowerCase (sampleHost.extname (lit "a.py"))).drop 1 = lit "py" := by
  decide

/-- The language tag outside the inherited members: the table value for one of the five
keys, else the lower-cased extension when it is non-empty, else `text`. -/
theorem attachmentLanguage_regular (h : Host) (fileName : JSString) (fileType : Val) :
    (∀ language, typeLookupOwn.lookup fileType.toStr = some language →
      (attachmentLanguage h fileName fileType).toStr =
        if language = [] then
          (if (h.toLowerCase (h.extname fileName)).drop 1 = [] then lit "text"
           else (h.toLowerCase (h.extname fileName)).drop 1)
        else language) ∧
    (typeLookupOwn.lookup fileType.toStr = none →
      objectPrototype.lookup fileType.toStr = none →
      (attachmentLanguage h fileName fileType).toStr =
        if (h.toLowerCase (h.extname fileName)).drop 1 = [] then lit "text"
        else (h.toLowerCase (h.extname fileName)).drop 1) := by
  have hext : ∀ e : JSString,
      ((Val.str e).or (Val.str (lit "text"))).toStr = if e = [] then lit "text" else e := by
    intro e
    cases e with
    | nil => rfl
    | cons a as => rfl
  have hor : ∀ e : JSString, (Val.undef.or (Val.str e)).or (Val.str (lit "text")) =
      (Val.str e).or (Val.str (lit "text")) := fun _ => rfl
  refine ⟨?_, ?_⟩
  · intro language hl
    cases language with
    | nil =>
      simp only [attachmentLanguage, typeLookup, hl, if_true]
      rw [← hext]
      rfl
    | cons a as =>
      simp only [attachmentLanguage, typeLookup, hl]
      rfl
  · intro h1 h2
    simp only [attachmentLanguage, typeLookup, h1, h2]
    rw [hor, hext]

/-! ## The claims about filenames and the conversation loop -/

theorem nameOrPlaceholder_usable {name : Val} (index : Nat) (hname : usableName name) :
    nameOrPlaceholder name index =
      Val.str (if name.truthy then name.toStr
        else lit "conversation_" ++ numberToString (index + 1)) := by
  unfold nameOrPlaceholder Val.or
  by_cases ht : name.truthy = true
  · rw [if_pos ht, if_pos ht]
    rcases hname with h0 | h0
    · cases name <;> simp_all [Val.isStr, Val.toStr]
    · rw [ht] at h0
      exact absurd h0 (by simp)
  · rw [if_neg ht, if_neg ht]

theorem nameOrPlaceholder_str_usable {name : Val} {index : Nat} {s : JSString}
    (hs : nameOrPlaceholder name index = Val.str s) : usableName name := by
  unfold nameOrPlaceholder Val.or at hs
  by_cases ht : name.truthy = true
  · rw [if_pos ht] at hs
    left
    rw [hs]
    rfl
  · right
    simpa using ht

/-- C5, counterexample. The conversation named `x` at position 999 gets the filename
`1000_x.md`, whose index part has four digits. -/
theorem outputFilename_position_999 :
    convertAt sampleHost 999 (some (conversationOf (Val.str (lit "x")) ListField.falsy)) =
      Except.ok (lit "1000_x.md", []) ∧
    (padStart3 (numberToString (999 + 1))).length = 4 := by
  decide

/-- C5, amended. For every conversation at 0-based position `index` that is converted,
the output filename is the decimal numeral of `index + 1` padded with zeros on the left to
at least three digits (exactly three digits up to 999, the unpadded numeral of four or
more digits from 1000 on), followed by `_`, by `sanitizeFilename` applied to the name (or
to the placeholder `conversation_<index+1>` when the name is missing or empty), and by
`.md`. -/
theorem outputFilename_shape (h : Host) (index : Nat) (c : Conversation) (w : Write)
    (hw : convertAt h index (some c) = Except.ok w) :
    w.1 = padStart3 (numberToString (index + 1)) ++ lit "_" ++
      sanitizeFilename (if c.name.truthy then c.name.toStr
        else lit "conversation_" ++ numberToString (index + 1)) ++ lit ".md" ∧
    (∀ d ∈ padStart3 (numberToString (index + 1)), isDigit d = true) ∧
    decimalValue (padStart3 (numberToString (index + 1))) = index + 1 ∧
    (index + 1 < 1000 → (padStart3 (numberToString (index + 1))).length = 3) ∧
    (1000 ≤ index + 1 → padStart3 (numberToString (index + 1)) = numberToString (index + 1) ∧
      4 ≤ (padStart3 (numberToString (index + 1))).length) := by
  obtain ⟨c', s, hc', hs, hw1, _⟩ := convertAt_ok hw
  have hcc : c' = c := (Option.some.inj hc').symm
  subst hcc
  have hs' := nameOrPlaceholder_usable index (nameOrPlaceholder_str_usable hs)
  rw [hs] at hs'
  have hs'' := Val.str.inj hs'
  obtain ⟨hd, hv, h3, h4⟩ := padStart3_numberToString (index + 1)
  refine ⟨?_, hd, hv, h3, h4⟩
  rw [hw1, hs'']
  rfl

/-- C5, amended, at the conversation named `a/b: c` at position 6. -/
theorem outputFilename_shape_witness :
    (lit "007_a_b_c.md", ([] : JSString)).1 = padStart3 (numberToString (6 + 1)) ++ lit "_" ++
      sanitizeFilename (if (conversationOf (Val.str (lit "a/b: c")) ListField.falsy).name.truthy
        then (conversationOf (Val.str (lit "a/b: c")) ListField.falsy).name.toStr
        else lit "conversation_" ++ numberToString (6 + 1)) ++ lit ".md" ∧
    (padStart3 (numberToString (6 + 1))).length = 3 :=
  have hshape := outputFilename_shape sampleHost 6
    (conversationOf (Val.str (lit "a/b: c")) ListField.falsy) (lit "007_a_b_c.md", [])
    (by decide)
  ⟨hshape.1, hshape.2.2.2.1 (by decide)⟩

/-- C9. The reserved name `000_projects.md` is strictly smaller, in code-unit order, than
the output filename of every index and base name, hence different from it; and every
write of the conversation loop, on every conversations array, goes to a filename that is
strictly greater than, and different from, `000_projects.md`. -/
theorem projects_filename_first :
    (∀ (index : Nat) (baseName : JSString),
      strLt (lit "000_projects.md") (outputFilename index baseName) = true ∧
      outputFilename index baseName ≠ lit "000_projects.md") ∧
    (∀ (h : Host) (conversations : List (Option Conversation)) (w : Write),
      w ∈ convertConversations h 0 conversations →
      strLt (lit "000_projects.md") w.1 = true ∧ w.1 ≠ lit "000_projects.md") := by
  have hfirst : ∀ (index : Nat) (baseName : JSString),
      strLt (lit "000_projects.md") (outputFilename index baseName) = true ∧
      outputFilename index baseName ≠ lit "000_projects.md" := by
    intro index baseName
    have hlt := projects_lt_outputFilename index baseName
    refine ⟨hlt, ?_⟩
    intro heq
    rw [heq, strLt_irrefl] at hlt
    exact absurd hlt (by simp)
  refine ⟨hfirst, ?_⟩
  intro h conversations w hw
  obtain ⟨index, conversation, hconv⟩ := mem_convertConversations conversations 0 hw
  obtain ⟨_, s, _, _, hw1, _⟩ := convertAt_ok hconv
  rw [hw1]
  exact hfirst index _

/-- C9, at the array of one conversation named `projects`. -/
theorem projects_filename_first_witness :
    strLt (lit "000_projects.md") (lit "001_projects.md") = true ∧
    lit "001_projects.md" ≠ lit "000_projects.md" :=
  projects_filename_first.2 sampleHost
    [some (conversationOf (Val.str (lit "projects")) ListField.falsy)]
    (lit "001_projects.md", []) (by decide)

theorem convertConversations_cons (h : Host) (start : Nat) (x : Option Conversation)
    (rest : List (Option Conversation)) :
    convertConversations h start (x :: rest) =
      writesAt h start x ++ convertConversations h (start + 1) rest := by
  unfold writesAt
  rw [convertConversations]
  cases writeAt h start x with
  | error e => rfl
  | ok w => rfl

theorem convertConversations_append (h : Host) :
    ∀ (pre : List (Option Conversation)) (start : Nat) (post : List (Option Conversation)),
      convertConversations h start (pre ++ post) =
        convertConversations h start pre ++ convertConversations h (start + pre.length) post := by
  intro pre
  induction pre with
  | nil => intro start post; simp [convertConversations]
  | cons x xs ih =>
    intro start post
    rw [List.cons_append, convertConversations_cons, convertConversations_cons, ih,
      List.append_assoc, List.length_cons]
    congr 3
    omega

theorem length_convertConversations (h : Host) :
    ∀ (conversations : List (Option Conversation)) (start : Nat),
      (convertConversations h start conversations).length =
        (conversations.enumFrom start).countP (fun p => (writeAt h p.1 p.2).isOk) := by
  intro conversations
  induction conversations with
  | nil => intro start; rfl
  | cons x xs ih =>
    intro start
    rw [convertConversations_cons, List.length_append, ih, List.enumFrom_cons,
      List.countP_cons]
    unfold writesAt
    cases writeAt h start x with
    | error e => simp [Except.isOk, Except.toBool]
    | ok w => simp [Except.isOk, Except.toBool]; omega

theorem exitCode_independent (h : Host) (conversations : List (Option Conversation))
    (projectsFile : FileState (List (Option Project))) :
    (convertExportToMarkdown h (FileState.parsed conversations) projectsFile).exitCode =
      (convertExportToMarkdown h (FileState.parsed []) projectsFile).exitCode := by
  unfold convertExportToMarkdown
  cases projectsFile with
  | missing => rfl
  | unusable => rfl
  | parsed projects =>
    simp only
    cases convertProjectsToMarkdown h projects with
    | error e => rfl
    | ok md =>
      simp only
      split_ifs <;> rfl

theorem convertConversations_split (h : Host) (pre post : List (Option Conversation))
    (x : Option Conversation) :
    convertConversations h 0 (pre ++ x :: post) =
      convertConversations h 0 pre ++ writesAt h pre.length x ++
        convertConversations h (pre.length + 1) post := by
  rw [convertConversations_append, convertConversations_cons, Nat.zero_add,
    List.append_assoc]

/-- C4. In the loop over `pre ++ x :: post`, the writes are those of the positions of
`pre`, then the write of `x` if it is performed and none if its rendering, its naming or
its write throws, then those of the positions of `post`: a failure at one position removes
its own write and changes no other one. The exit status of the run does not depend on the
conversations, and is 0 when there is no projects file. -/
theorem conversation_failure_confined (h : Host) (pre post : List (Option Conversation))
    (x : Option Conversation) (projectsFile : FileState (List (Option Project))) :
    convertConversations h 0 (pre ++ x :: post) =
      convertConversations h 0 pre ++ writesAt h pre.length x ++
        convertConversations h (pre.length + 1) post ∧
    (∀ e, convertAt h pre.length x = Except.error e →
      convertConversations h 0 (pre ++ x :: post) =
        convertConversations h 0 pre ++ convertConversations h (pre.length + 1) post) ∧
    (∀ e, writeAt h pre.length x = Except.error e →
      convertConversations h 0 (pre ++ x :: post) =
        convertConversations h 0 pre ++ convertConversations h (pre.length + 1) post) ∧
    (∀ w, convertAt h pre.length x = Except.ok w →
      convertConversations h 0 (pre ++ x :: post) =
        convertConversations h 0 pre ++ (if writeSucceeds h w then [w] else []) ++
          convertConversations h (pre.length + 1) post) ∧
    (∀ w, writeAt h pre.length x = Except.ok w →
      convertConversations h 0 (pre ++ x :: post) =
        convertConversations h 0 pre ++ w :: convertConversations h (pre.length + 1) post) ∧
    (convertExportToMarkdown h (FileState.parsed (pre ++ x :: post)) projectsFile).exitCode =
      (convertExportToMarkdown h (FileState.parsed []) projectsFile).exitCode ∧
    (convertExportToMarkdown h (FileState.parsed (pre ++ x :: post)) FileState.missing).exitCode
      = 0 ∧
    (convertExportToMarkdown h (FileState.parsed (pre ++ x :: post)) FileState.missing).writes
      = convertConversations h 0 (pre ++ x :: post) := by
  have hdecomp := convertConversations_split h pre post x
  have herr : ∀ e, writeAt h pre.length x = Except.error e →
      convertConversations h 0 (pre ++ x :: post) =
        convertConversations h 0 pre ++ convertConversations h (pre.length + 1) post := by
    intro e he
    rw [hdecomp, writesAt, he]
    simp
  have hok : ∀ w, writeAt h pre.length x = Except.ok w →
      convertConversations h 0 (pre ++ x :: post) =
        convertConversations h 0 pre ++ w :: convertConversations h (pre.length + 1) post := by
    intro w hw
    rw [hdecomp, writesAt, hw]
    simp
  refine ⟨hdecomp, ?_, herr, ?_, hok, exitCode_independent h _ projectsFile, rfl, rfl⟩
  · intro e he
    exact herr e (writeAt_of_error he)
  · intro w hw
    have hwrite := writeAt_of_ok hw
    by_cases hs : writeSucceeds h w = true
    · rw [if_pos hs] at hwrite
      rw [if_pos hs, hok w hwrite]
      simp
    · rw [if_neg hs] at hwrite
      rw [if_neg hs, herr _ hwrite]
      simp

/-- C4, at an array whose second element is `null`, between two conversations. -/
theorem conversation_failure_confined_witness :
    convertConversations sampleHost 0
      ([some (conversationOf (Val.str (lit "a")) ListField.falsy)] ++ none ::
        [some (conversationOf (Val.str (lit "b")) ListField.falsy)]) =
      convertConversations sampleHost 0 [some (conversationOf (Val.str (lit "a")) ListField.falsy)]
        ++ convertConversations sampleHost
          ([some (conversationOf (Val.str (lit "a")) ListField.falsy)].length + 1)
          [some (conversationOf (Val.str (lit "b")) ListField.falsy)] ∧
    convertConversations sampleHost 0
      [some (conversationOf (Val.str (lit "a")) ListField.falsy), none,
        some (conversationOf (Val.str (lit "b")) ListField.falsy)] =
      [(lit "001_a.md", []), (lit "003_b.md", [])] :=
  ⟨(conversation_failure_confined sampleHost
      [some (conversationOf (Val.str (lit "a")) ListField.falsy)]
      [some (conversationOf (Val.str (lit "b")) ListField.falsy)] none FileState.missing).2.1
      JSError.typeError rfl,
   by decide⟩

/-- Where the write is accepted, a conversation without `chat_messages` whose name is a
string or missing is converted to the empty string and written, as an empty file, to its
index-derived filename; the number of writes of the loop is the number of positions at
which nothing threw. -/
theorem empty_conversation_written_when_accepted (h : Host)
    (pre post : List (Option Conversation)) (c : Conversation)
    (hc : c.chat_messages = ListField.falsy) (hname : usableName c.name)
    (haccept : writeSucceeds h (outputFilename pre.length
        (sanitizeFilename (if c.name.truthy then c.name.toStr
          else lit "conversation_" ++ numberToString (pre.length + 1))), []) = true) :
    convertAt h pre.length (some c) =
      Except.ok (outputFilename pre.length
        (sanitizeFilename (if c.name.truthy then c.name.toStr
          else lit "conversation_" ++ numberToString (pre.length + 1))), []) ∧
    (outputFilename pre.length
        (sanitizeFilename (if c.name.truthy then c.name.toStr
          else lit "conversation_" ++ numberToString (pre.length + 1))), []) ∈
      convertConversations h 0 (pre ++ some c :: post) ∧
    (convertConversations h 0 (pre ++ some c :: post)).length =
      ((pre ++ some c :: post).enumFrom 0).countP (fun p => (writeAt h p.1 p.2).isOk) := by
  have hat : convertAt h pre.length (some c) =
      Except.ok (outputFilename pre.length
        (sanitizeFilename (if c.name.truthy then c.name.toStr
          else lit "conversation_" ++ numberToString (pre.length + 1))), []) := by
    simp only [convertAt, convertClaudeJsonToMarkdown, hc, sanitizeFilenameCall,
      nameOrPlaceholder_usable pre.length hname, Val.asString, bind, Except.bind, pure,
      Except.pure]
  have hwrite := writeAt_of_ok hat
  rw [if_pos haccept] at hwrite
  refine ⟨hat, ?_, length_convertConversations h _ 0⟩
  rw [(convertConversations_split h pre post (some c)), writesAt, hwrite]
  simp

set_option maxRecDepth 100000 in
/-- C10, the failing input. The conversation named `a`, U+0000, `b`, without
`chat_messages`, has a usable name and is rendered and named without an exception:
`sanitizeFilename` returns the name with its U+0000, the filename is `001_a`, U+0000,
`b.md`. The write of line 145 then throws inside the inner `try`, the loop performs no
write and the run leaves no file, with exit status 0. -/
theorem nul_name_not_written :
    usableName nulNameConversation.name ∧
    sanitizeFilename [97, 0, 98] = [97, 0, 98] ∧
    convertAt sampleHost 0 (some nulNameConversation) =
      Except.ok (lit "001_" ++ [97, 0, 98] ++ lit ".md", []) ∧
    writeAt sampleHost 0 (some nulNameConversation) = Except.error JSError.systemError ∧
    convertConversations sampleHost 0 [some nulNameConversation] = [] ∧
    (convertExportToMarkdownOn sampleHost (FileState.parsed [some nulNameConversation])
      FileState.missing (fun _ => none)).1 (lit "001_" ++ [97, 0, 98] ++ lit ".md") = none ∧
    (convertExportToMarkdownOn sampleHost (FileState.parsed [some nulNameConversation])
      FileState.missing (fun _ => none)).2 = 0 :=
  ⟨Or.inl rfl, by decide, by decide, by decide, by decide, by decide, by decide⟩

/-! ## The claim about escapeHtml -/

/-- The replacement of one code unit, case by case. -/
theorem escapeChar_cases (c : CodeUnit) :
    (c = 38 ∧ escapeChar c = [38, 97, 109, 112, 59]) ∨
    (c = 60 ∧ escapeChar c = [38, 108, 116, 59]) ∨
    (c = 62 ∧ escapeChar c = [38, 103, 116, 59]) ∨
    (c = 34 ∧ escapeChar c = [38, 113, 117, 111, 116, 59]) ∨
    (c = 39 ∧ escapeChar c = [38, 35, 51, 57, 59]) ∨
    ((c ≠ 38 ∧ c ≠ 60 ∧ c ≠ 62 ∧ c ≠ 34 ∧ c ≠ 39) ∧ escapeChar c = [c]) := by
  by_cases h1 : c = 38
  · subst h1; exact Or.inl ⟨rfl, by decide⟩
  by_cases h2 : c = 60
  · subst h2; exact Or.inr (Or.inl ⟨rfl, by decide⟩)
  by_cases h3 : c = 62
  · subst h3; exact Or.inr (Or.inr (Or.inl ⟨rfl, by decide⟩))
  by_cases h4 : c = 34
  · subst h4; exact Or.inr (Or.inr (Or.inr (Or.inl ⟨rfl, by decide⟩)))
  by_cases h5 : c = 39
  · subst h5; exact Or.inr (Or.inr (Or.inr (Or.inr (Or.inl ⟨rfl, by decide⟩))))
  refine Or.inr (Or.inr (Or.inr (Or.inr (Or.inr ⟨⟨h1, h2, h3, h4, h5⟩, ?_⟩))))
  have hs : isHtmlSpecial c = false := by
    simp [isHtmlSpecial, h1, h2, h3, h4, h5]
  simp [escapeChar, hs]

theorem escapeHtmlString_cons (c : CodeUnit) (s : JSString) :
    escapeHtmlString (c :: s) = escapeChar c ++ escapeHtmlString s := by
  simp [escapeHtmlString]

theorem escapeHtmlString_injective :
    ∀ (s t : JSString), escapeHtmlString s = escapeHtmlString t → s = t := by
  intro s
  induction s with
  | nil =>
    intro t ht
    cases t with
    | nil => rfl
    | cons d ds =>
      rw [escapeHtmlString_cons] at ht
      rcases escapeChar_cases d with h | h | h | h | h | h <;>
        (rw [h.2] at ht; simp [escapeHtmlString] at ht)
  | cons c cs ih =>
    intro t ht
    cases t with
    | nil =>
      rw [escapeHtmlString_cons] at ht
      rcases escapeChar_cases c with h | h | h | h | h | h <;>
        (rw [h.2] at ht; simp [escapeHtmlString] at ht)
    | cons d ds =>
      rw [escapeHtmlString_cons, escapeHtmlString_cons] at ht
      rcases escapeChar_cases c with h | h | h | h | h | h <;>
        rcases escapeChar_cases d with k | k | k | k | k | k <;>
        (rw [h.2, k.2] at ht
         simp only [List.cons_append, List.nil_append, List.cons.injEq] at ht
         first
           | (exact absurd ht.1 h.1.1)
           | (exact absurd ht.1.symm k.1.1)
           | (rw [ht.1, ih ds ht.2])
           | (simp at ht; rw [h.1, k.1, ih ds ht])
           | (simp at ht))

theorem escapeChar_shape (c : CodeUnit) :
    ∃ (x : CodeUnit) (e : JSString), escapeChar c = x :: e ∧ (38 : CodeUnit) ∉ e ∧
      (∀ y ∈ x :: e, y ≠ 60 ∧ y ≠ 62 ∧ y ≠ 34 ∧ y ≠ 39) ∧
      (x = 38 → escapeChar c ∈ htmlEntities) := by
  rcases escapeChar_cases c with h | h | h | h | h | h
  · exact ⟨_, _, h.2, by decide, by decide, fun _ => by rw [h.2]; decide⟩
  · exact ⟨_, _, h.2, by decide, by decide, fun _ => by rw [h.2]; decide⟩
  · exact ⟨_, _, h.2, by decide, by decide, fun _ => by rw [h.2]; decide⟩
  · exact ⟨_, _, h.2, by decide, by decide, fun _ => by rw [h.2]; decide⟩
  · exact ⟨_, _, h.2, by decide, by decide, fun _ => by rw [h.2]; decide⟩
  · refine ⟨c, [], h.2, by simp, ?_, fun hx => absurd hx h.1.1⟩
    intro y hy
    have : y = c := by simpa using hy
    subst this
    exact h.1.2

theorem split_after_block {e : JSString} (he : (38 : CodeUnit) ∉ e) :
    ∀ {ps rest post : JSString}, e ++ rest = ps ++ 38 :: post →
      ∃ pre', ps = e ++ pre' ∧ rest = pre' ++ 38 :: post := by
  induction e with
  | nil => intro ps rest post hyp; exact ⟨ps, rfl, hyp⟩
  | cons y ys ih =>
    intro ps rest post hyp
    cases ps with
    | nil =>
      simp only [List.cons_append, List.nil_append, List.cons.injEq] at hyp
      exact absurd hyp.1.symm (fun h38 => he (by rw [h38]; exact List.mem_cons_self _ _))
    | cons q qs =>
      simp only [List.cons_append, List.cons.injEq] at hyp
      obtain ⟨pre', h1, h2⟩ := ih (fun hm => he (List.mem_cons_of_mem _ hm)) hyp.2
      exact ⟨pre', by rw [hyp.1, h1]; rfl, h2⟩

theorem escapeHtmlString_amp :
    ∀ (s pre post : JSString), escapeHtmlString s = pre ++ 38 :: post →
      ∃ e ∈ htmlEntities, e <+: 38 :: post := by
  intro s
  induction s with
  | nil => intro pre post hyp; simp [escapeHtmlString] at hyp
  | cons c cs ih =>
    intro pre post hyp
    rw [escapeHtmlString_cons] at hyp
    obtain ⟨x, e, hxe, h38, _, hent⟩ := escapeChar_shape c
    rw [hxe] at hyp
    cases pre with
    | nil =>
      simp only [List.cons_append, List.nil_append, List.cons.injEq] at hyp
      refine ⟨escapeChar c, hent hyp.1, ?_⟩
      rw [hxe, hyp.1, ← hyp.2]
      exact ⟨escapeHtmlString cs, rfl⟩
    | cons q qs =>
      simp only [List.cons_append, List.cons.injEq] at hyp
      obtain ⟨pre', _, h2⟩ := split_after_block h38 hyp.2
      exact ih pre' post h2

theorem escapeHtmlString_no_markup :
    ∀ (s : JSString), ∀ y ∈ escapeHtmlString s, y ≠ 60 ∧ y ≠ 62 ∧ y ≠ 34 ∧ y ≠ 39 := by
  intro s
  induction s with
  | nil => intro y hy; simp [escapeHtmlString] at hy
  | cons c cs ih =>
    intro y hy
    rw [escapeHtmlString_cons] at hy
    obtain ⟨x, e, hxe, _, hall, _⟩ := escapeChar_shape c
    rcases List.mem_append.1 hy with h0 | h0
    · rw [hxe] at h0
      exact hall y h0
    · exact ih y h0

theorem escapeHtmlString_plain :
    ∀ (s : JSString), (∀ c ∈ s, isHtmlSpecial c = false) → escapeHtmlString s = s := by
  intro s
  induction s with
  | nil => intro _; rfl
  | cons c cs ih =>
    intro hall
    have hc : isHtmlSpecial c = false := hall c (List.mem_cons_self _ _)
    rw [escapeHtmlString_cons, ih (fun d hd => hall d (List.mem_cons_of_mem _ hd))]
    simp [escapeChar, hc]

/-- C19. For every string `s`, `escapeHtml(s)` contains none of `<`, `>`, `"`, `'`, and
every `&` in it begins one of the five entities; a string without any of `&`, `<`, `>`,
`"`, `'` is returned unchanged; a value that is not a string is returned unchanged; and
`escapeHtml` is injective on strings. -/
theorem escapeHtml_spec :
    (∀ (s : JSString), escapeHtml (Val.str s) = Val.str (escapeHtmlString s) ∧
      (∀ y ∈ escapeHtmlString s, y ≠ 60 ∧ y ≠ 62 ∧ y ≠ 34 ∧ y ≠ 39) ∧
      (∀ pre post, escapeHtmlString s = pre ++ 38 :: post →
        ∃ e ∈ htmlEntities, e <+: 38 :: post)) ∧
    (∀ (s : JSString), (∀ c ∈ s, c ≠ 38 ∧ c ≠ 60 ∧ c ≠ 62 ∧ c ≠ 34 ∧ c ≠ 39) →
      escapeHtml (Val.str s) = Val.str s) ∧
    (∀ (v : Val), v.isStr = false → escapeHtml v = v) ∧
    (∀ (s t : JSString), escapeHtml (Val.str s) = escapeHtml (Val.str t) → s = t) := by
  refine ⟨?_, ?_, ?_, ?_⟩
  · intro s
    exact ⟨rfl, escapeHtmlString_no_markup s,
      fun pre post hyp => escapeHtmlString_amp s pre post hyp⟩
  · intro s hall
    have hplain : ∀ c ∈ s, isHtmlSpecial c = false := by
      intro c hc
      obtain ⟨h1, h2, h3, h4, h5⟩ := hall c hc
      simp [isHtmlSpecial, h1, h2, h3, h4, h5]
    simp only [escapeHtml, escapeHtmlString_plain s hplain]
  · intro v hv
    cases v with
    | str s => simp [Val.isStr] at hv
    | undef => rfl
    | null => rfl
    | bool b => rfl
    | num t => rfl
    | obj t => rfl
  · intro s t hst
    simp only [escapeHtml, Val.str.injEq] at hst
    exact escapeHtmlString_injective s t hst

/-- C19, at the strings `a<b & "c"`, `plain text` and at the number 5. -/
theorem escapeHtml_spec_witness :
    escapeHtml (Val.str (lit "plain text")) = Val.str (lit "plain text") ∧
    escapeHtml (Val.num (lit "5")) = Val.num (lit "5") ∧
    escapeHtml (Val.str (lit "a<b & \"c\"")) = Val.str (lit "a&lt;b &amp; &quot;c&quot;") ∧
    (∃ e ∈ htmlEntities, e <+: 38 :: lit "lt;b &amp; &quot;c&quot;") :=
  ⟨escapeHtml_spec.2.1 (lit "plain text") (by decide),
   escapeHtml_spec.2.2.1 (Val.num (lit "5")) rfl,
   by decide,
   (escapeHtml_spec.1 (lit "a<b & \"c\"")).2.2 (lit "a") (lit "lt;b &amp; &quot;c&quot;")
     (by decide)⟩

/-! ## The claims about distinct filenames and re-running -/

theorem digit_block_unique :
    ∀ (D₁ D₂ r₁ r₂ : JSString), (∀ c ∈ D₁, isDigit c = true) → (∀ c ∈ D₂, isDigit c = true) →
      D₁ ++ underscore :: r₁ = D₂ ++ underscore :: r₂ → D₁ = D₂ := by
  intro D₁
  induction D₁ with
  | nil =>
    intro D₂ r₁ r₂ _ h2 heq
    cases D₂ with
    | nil => rfl
    | cons d ds =>
      simp only [List.nil_append, List.cons_append, List.cons.injEq] at heq
      have hd := h2 d (List.mem_cons_self _ _)
      rw [← heq.1] at hd
      exact absurd hd (by decide)
  | cons c cs ih =>
    intro D₂ r₁ r₂ h1 h2 heq
    cases D₂ with
    | nil =>
      simp only [List.nil_append, List.cons_append, List.cons.injEq] at heq
      have hc := h1 c (List.mem_cons_self _ _)
      rw [heq.1] at hc
      exact absurd hc (by decide)
    | cons d ds =>
      simp only [List.cons_append, List.cons.injEq] at heq
      rw [heq.1, ih ds r₁ r₂ (fun x hx => h1 x (List.mem_cons_of_mem _ hx))
        (fun x hx => h2 x (List.mem_cons_of_mem _ hx)) heq.2]

theorem outputFilename_eq (index : Nat) (baseName : JSString) :
    outputFilename index baseName =
      padStart3 (numberToString (index + 1)) ++ underscore :: (baseName ++ lit ".md") := by
  have hu : lit "_" = [underscore] := by decide
  unfold outputFilename
  rw [hu]
  simp

theorem outputFilename_index_injective {i j : Nat} {b₁ b₂ : JSString}
    (heq : outputFilename i b₁ = outputFilename j b₂) : i = j := by
  rw [outputFilename_eq, outputFilename_eq] at heq
  obtain ⟨hd1, hv1, _, _⟩ := padStart3_numberToString (i + 1)
  obtain ⟨hd2, hv2, _, _⟩ := padStart3_numberToString (j + 1)
  have hD := digit_block_unique _ _ _ _ hd1 hd2 heq
  have hv : i + 1 = j + 1 := by rw [← hv1, ← hv2, hD]
  omega

theorem mem_convertConversations_index {h : Host} {w : Write} :
    ∀ (conversations : List (Option Conversation)) (start : Nat),
      w ∈ convertConversations h start conversations →
      ∃ index baseName, start ≤ index ∧ w.1 = outputFilename index baseName := by
  intro conversations
  induction conversations with
  | nil => intro start hw; simp [convertConversations] at hw
  | cons c rest ih =>
    intro start hw
    rw [convertConversations_cons] at hw
    rcases List.mem_append.1 hw with h0 | h0
    · unfold writesAt at h0
      cases hc : writeAt h start c with
      | error e => simp [hc] at h0
      | ok w0 =>
        simp only [hc, List.mem_singleton] at h0
        subst h0
        obtain ⟨_, s, _, _, hw1, _⟩ := convertAt_ok (writeAt_ok hc).1
        exact ⟨start, _, Nat.le_refl _, hw1⟩
    · obtain ⟨index, b, hle, hw1⟩ := ih (start + 1) h0
      exact ⟨index, b, by omega, hw1⟩

theorem convertConversations_nodup (h : Host) :
    ∀ (conversations : List (Option Conversation)) (start : Nat),
      ((convertConversations h start conversations).map Prod.fst).Nodup := by
  intro conversations
  induction conversations with
  | nil => intro start; simp [convertConversations]
  | cons c rest ih =>
    intro start
    rw [convertConversations_cons]
    unfold writesAt
    cases hc : writeAt h start c with
    | error e => simpa using ih (start + 1)
    | ok w0 =>
      simp only [List.singleton_append, List.map_cons, List.nodup_cons]
      refine ⟨?_, ih (start + 1)⟩
      intro hmem
      obtain ⟨w, hw, hfst⟩ := List.mem_map.1 hmem
      obtain ⟨index, b, hle, hw1⟩ := mem_convertConversations_index rest (start + 1) hw
      obtain ⟨_, s, _, _, hw0, _⟩ := convertAt_ok (writeAt_ok hc).1
      rw [hw1, hw0] at hfst
      have := outputFilename_index_injective hfst
      omega

theorem replay_eq_lastWrite :
    ∀ (ws : List Write) (d : Dir) (name : JSString),
      Dir.replay d ws name =
        match lastWrite name ws with
        | some content => some content
        | none => d name := by
  intro ws
  induction ws with
  | nil => intro d name; rfl
  | cons w ws ih =>
    intro d name
    have hstep : Dir.replay d (w :: ws) = Dir.replay (Dir.write d w) ws := rfl
    rw [hstep, ih, lastWrite]
    cases hl : lastWrite name ws with
    | some content => rfl
    | none =>
      simp only [Dir.write]
      split_ifs <;> rfl

theorem replay_idempotent (ws : List Write) (d : Dir) :
    Dir.replay (Dir.replay d ws) ws = Dir.replay d ws := by
  funext name
  rw [replay_eq_lastWrite ws (Dir.replay d ws) name]
  cases hl : lastWrite name ws with
  | some content =>
    rw [replay_eq_lastWrite ws d name, hl]
  | none => rfl

theorem mem_of_lastWrite {name : JSString} :
    ∀ (ws : List Write) (content : JSString), lastWrite name ws = some content →
      name ∈ ws.map Prod.fst := by
  intro ws
  induction ws with
  | nil => intro content hl; simp [lastWrite] at hl
  | cons u us ih =>
    intro content hl
    rw [lastWrite] at hl
    cases hl2 : lastWrite name us with
    | some c2 => exact List.mem_cons_of_mem _ (ih c2 hl2)
    | none =>
      rw [hl2] at hl
      simp only at hl
      split_ifs at hl with hname
      rw [hname]
      exact List.mem_cons_self _ _

theorem lastWrite_of_nodup :
    ∀ (ws : List Write), (ws.map Prod.fst).Nodup → ∀ w ∈ ws, lastWrite w.1 ws = some w.2 := by
  intro ws
  induction ws with
  | nil => intro _ w hw; simp at hw
  | cons v vs ih =>
    intro hnd w hw
    simp only [List.map_cons, List.nodup_cons] at hnd
    rcases List.mem_cons.1 hw with h0 | h0
    · subst h0
      have hnone : lastWrite w.1 vs = none := by
        cases hl : lastWrite w.1 vs with
        | none => rfl
        | some content => exact absurd (mem_of_lastWrite vs content hl) hnd.1
      rw [lastWrite, hnone]
      simp
    · rw [lastWrite, ih hnd.2 w h0]

/-- C14. Two distinct positions never get the same output filename, whatever the base
names are and however long the array is; hence the filenames written by the loop are
pairwise distinct, and after the loop every written file holds the content written for its
own position. -/
theorem output_filenames_distinct :
    (∀ (i j : Nat) (b₁ b₂ : JSString), i ≠ j → outputFilename i b₁ ≠ outputFilename j b₂) ∧
    (∀ (h : Host) (i j : Nat) (ci cj : Option Conversation) (wi wj : Write), i ≠ j →
      convertAt h i ci = Except.ok wi → convertAt h j cj = Except.ok wj → wi.1 ≠ wj.1) ∧
    (∀ (h : Host) (conversations : List (Option Conversation)),
      ((convertConversations h 0 conversations).map Prod.fst).Nodup) ∧
    (∀ (h : Host) (conversations : List (Option Conversation)) (d : Dir) (w : Write),
      w ∈ convertConversations h 0 conversations →
      Dir.replay d (convertConversations h 0 conversations) w.1 = some w.2) := by
  refine ⟨?_, ?_, ?_, ?_⟩
  · intro i j b₁ b₂ hij heq
    exact hij (outputFilename_index_injective heq)
  · intro h i j ci cj wi wj hij hi hj heq
    obtain ⟨_, _, _, _, hwi, _⟩ := convertAt_ok hi
    obtain ⟨_, _, _, _, hwj, _⟩ := convertAt_ok hj
    rw [hwi, hwj] at heq
    exact hij (outputFilename_index_injective heq)
  · intro h conversations
    exact convertConversations_nodup h conversations 0
  · intro h conversations d w hw
    rw [replay_eq_lastWrite,
      lastWrite_of_nodup _ (convertConversations_nodup h conversations 0) w hw]

/-- C14, at positions 0 and 1000 with equal names, and at an array of two conversations
of the same name. -/
theorem output_filenames_distinct_witness :
    outputFilename 0 (lit "a") ≠ outputFilename 1000 (lit "a") ∧
    Dir.replay (fun _ => none)
      (convertConversations sampleHost 0
        [some (conversationOf (Val.str (lit "a")) ListField.falsy),
          some (conversationOf (Val.str (lit "a")) (ListField.arr []))])
      (lit "001_a.md", ([] : JSString)).1 = some (lit "001_a.md", ([] : JSString)).2 :=
  ⟨output_filenames_distinct.1 0 1000 (lit "a") (lit "a") (by decide),
   output_filenames_distinct.2.2.2 sampleHost
     [some (conversationOf (Val.str (lit "a")) ListField.falsy),
       some (conversationOf (Val.str (lit "a")) (ListField.arr []))]
     (fun _ => none) (lit "001_a.md", []) (by decide)⟩

theorem replay_append (d : Dir) (a b : List Write) :
    Dir.replay d (a ++ b) = Dir.replay (Dir.replay d a) b := by
  simp [Dir.replay, List.foldl_append]

theorem convertOneOn_eq (h : Host) (index : Nat) (conversation : Option Conversation)
    (d : Dir) :
    convertOneOn h index conversation d = Dir.replay d (writesAt h index conversation) := by
  unfold convertOneOn writesAt
  cases hc : convertAt h index conversation with
  | error e =>
    rw [writeAt_of_error hc]
    rfl
  | ok w =>
    rw [writeAt_of_ok hc]
    simp only [bind, Except.bind, writeFileSync]
    by_cases hs : writeSucceeds h w = true
    · rw [if_pos hs, if_pos hs]
      rfl
    · rw [if_neg hs, if_neg hs]
      rfl

theorem convertConversationsOn_eq (h : Host) :
    ∀ (conversations : List (Option Conversation)) (start : Nat) (d : Dir),
      convertConversationsOn h start conversations d =
        Dir.replay d (convertConversations h start conversations) := by
  intro conversations
  induction conversations with
  | nil => intro start d; rfl
  | cons c rest ih =>
    intro start d
    rw [convertConversationsOn, ih, convertOneOn_eq, convertConversations_cons, replay_append]

/-- The directory a run leaves is the initial directory updated by the writes the run
performs, and its exit status is that of the run; the writes are the same whatever the
initial directory. -/
theorem convertExportToMarkdownOn_eq (h : Host)
    (conversationsFile : FileState (List (Option Conversation)))
    (projectsFile : FileState (List (Option Project))) (d : Dir) :
    convertExportToMarkdownOn h conversationsFile projectsFile d =
      (Dir.replay d (convertExportToMarkdown h conversationsFile projectsFile).writes,
        (convertExportToMarkdown h conversationsFile projectsFile).exitCode) := by
  unfold convertExportToMarkdownOn convertExportToMarkdown
  cases conversationsFile with
  | missing => rfl
  | unusable => rfl
  | parsed conversations =>
    simp only [convertConversationsOn_eq]
    cases projectsFile with
    | missing => rfl
    | unusable => rfl
    | parsed projects =>
      simp only
      cases convertProjectsToMarkdown h projects with
      | error e => rfl
      | ok md =>
        simp only [bind, Except.bind, writeFileSync]
        by_cases hs : writeSucceeds h (lit "000_projects.md", md) = true
        · rw [if_pos hs, if_pos hs]
          simp only [pure, Except.pure, replay_append]
          rfl
        · rw [if_neg hs, if_neg hs]

/-- C13. With the input files and the host (date formatter included) held fixed, and for
every initial output directory, running the script on the directory left by a first run
leaves that directory, and the exit status, exactly as the first run left them. The
directory a run leaves is the initial one updated by the writes of the run, which do not
depend on the directory: a file written by the run holds, after one run and after two,
the content written to it, and every other file is left as it was. -/
theorem rerun_idempotent (h : Host)
    (conversationsFile : FileState (List (Option Conversation)))
    (projectsFile : FileState (List (Option Project))) (d : Dir) :
    convertExportToMarkdownOn h conversationsFile projectsFile
        (convertExportToMarkdownOn h conversationsFile projectsFile d).1 =
      convertExportToMarkdownOn h conversationsFile projectsFile d ∧
    (convertExportToMarkdownOn h conversationsFile projectsFile d).1 =
      Dir.replay d (convertExportToMarkdown h conversationsFile projectsFile).writes ∧
    (∀ name content,
      lastWrite name (convertExportToMarkdown h conversationsFile projectsFile).writes =
        some content →
      (convertExportToMarkdownOn h conversationsFile projectsFile d).1 name = some content ∧
      (convertExportToMarkdownOn h conversationsFile projectsFile
        (convertExportToMarkdownOn h conversationsFile projectsFile d).1).1 name =
          some content) ∧
    (∀ name,
      lastWrite name (convertExportToMarkdown h conversationsFile projectsFile).writes = none →
      (convertExportToMarkdownOn h conversationsFile projectsFile d).1 name = d name) := by
  have hidem : convertExportToMarkdownOn h conversationsFile projectsFile
        (convertExportToMarkdownOn h conversationsFile projectsFile d).1 =
      convertExportToMarkdownOn h conversationsFile projectsFile d := by
    rw [convertExportToMarkdownOn_eq h conversationsFile projectsFile d,
      convertExportToMarkdownOn_eq, replay_idempotent]
  have hdir : (convertExportToMarkdownOn h conversationsFile projectsFile d).1 =
      Dir.replay d (convertExportToMarkdown h conversationsFile projectsFile).writes := by
    rw [convertExportToMarkdownOn_eq]
  refine ⟨hidem, hdir, ?_, ?_⟩
  · intro name content hl
    have h1 : (convertExportToMarkdownOn h conversationsFile projectsFile d).1 name =
        some content := by
      rw [hdir, replay_eq_lastWrite, hl]
    rw [hidem]
    exact ⟨h1, h1⟩
  · intro name hl
    rw [hdir, replay_eq_lastWrite, hl]

set_option maxRecDepth 100000 in
/-- C13, at an export of one conversation and an empty projects array, started on an
empty directory. -/
theorem rerun_idempotent_witness :
    (convertExportToMarkdownOn sampleHost
      (FileState.parsed [some (conversationOf (Val.str (lit "a")) ListField.falsy)])
      (FileState.parsed []) (fun _ => none)).1 (lit "001_a.md") = some [] ∧
    (convertExportToMarkdownOn sampleHost
      (FileState.parsed [some (conversationOf (Val.str (lit "a")) ListField.falsy)])
      (FileState.parsed [])
      (convertExportToMarkdownOn sampleHost
        (FileState.parsed [some (conversationOf (Val.str (lit "a")) ListField.falsy)])
        (FileState.parsed []) (fun _ => none)).1).1 (lit "001_a.md") = some [] :=
  (rerun_idempotent sampleHost
    (FileState.parsed [some (conversationOf (Val.str (lit "a")) ListField.falsy)])
    (FileState.parsed []) (fun _ => none)).2.2.1 (lit "001_a.md") [] (by decide)

/-! ## The claims about the projects renderer -/

theorem joinWith_append (sep : JSString) :
    ∀ (A B : List JSString), A ≠ [] → B ≠ [] →
      joinWith sep (A ++ B) = joinWith sep A ++ sep ++ joinWith sep B
  | [], _, hA, _ => absurd rfl hA
  | _, [], _, hB => absurd rfl hB
  | [x], y :: B, _, _ => by simp [joinWith]
  | x :: x' :: A, y :: B, _, _ => by
    have ih := joinWith_append sep (x' :: A) (y :: B) (by simp) (by simp)
    simp only [List.cons_append] at ih
    simp only [List.cons_append, joinWith, List.append_eq, ih, List.append_assoc]

/-- The join of a contiguous run of segments occurs in the joined text. -/
theorem joinWith_segment (sep : JSString) {M bits : List JSString} (hM : M ≠ [])
    (hinf : M <:+: bits) : joinWith sep M <:+: joinWith sep bits := by
  obtain ⟨A, B, rfl⟩ := hinf
  cases A with
  | nil =>
    cases B with
    | nil => simp
    | cons b B =>
      rw [List.nil_append, joinWith_append sep M (b :: B) hM (by simp), List.append_assoc]
      exact (List.prefix_append _ _).isInfix
  | cons a A =>
    cases B with
    | nil =>
      rw [List.append_nil, joinWith_append sep (a :: A) M (by simp) hM]
      exact (List.suffix_append _ _).isInfix
    | cons b B =>
      rw [joinWith_append sep (a :: A ++ M) (b :: B) (by simp) (by simp),
        joinWith_append sep (a :: A) M (by simp) hM]
      exact ⟨joinWith sep (a :: A) ++ sep, sep ++ joinWith sep (b :: B), by simp⟩

/-- When the loop completes, the segments pushed for an item form a contiguous run of
the segments pushed by the loop. -/
theorem forEachPush_split {α : Type} {f : α → Except JSError (List JSString)} :
    ∀ {xs : List α} {bits : List JSString}, forEachPush f xs = Except.ok bits →
      ∀ x ∈ xs, ∃ b, f x = Except.ok b ∧ b <:+: bits := by
  intro xs
  induction xs with
  | nil => intro bits _ x hx; simp at hx
  | cons y ys ih =>
    intro bits hbits x hx
    rw [forEachPush_cons] at hbits
    cases hy : f y with
    | error e => simp [hy] at hbits
    | ok a =>
      cases hys : forEachPush f ys with
      | error e => simp [hy, hys] at hbits
      | ok b =>
        simp only [hy, hys, Except.ok.injEq] at hbits
        subst hbits
        rcases List.mem_cons.1 hx with h0 | h0
        · subst h0
          exact ⟨a, hy, (List.prefix_append _ _).isInfix⟩
        · obtain ⟨b', hb', hsub⟩ := ih hys x h0
          exact ⟨b', hb', List.IsInfix.trans hsub (List.suffix_append _ _).isInfix⟩

theorem renderDocs_none {h : Host} {docs : ListField (Option Doc)}
    (hdocs : docs = ListField.falsy ∨ docs = ListField.arr []) :
    renderDocs h docs = Except.ok [] := by
  rcases hdocs with h0 | h0 <;> (subst h0; rfl)

theorem truthy_str_of_ne_nil {t : JSString} (hne : t ≠ []) : (Val.str t).truthy = true := by
  cases t with
  | nil => exact absurd rfl hne
  | cons a as => rfl

theorem template_block_text (t : JSString) :
    lit "\n```\n" ++ t ++ lit "\n```\n" <:+:
      joinWith (lit "\n") [lit "**Prompt Template:**", lit "```", t, lit "```", lit "---"] := by
  have h1 : lit "\n```\n" = lit "\n" ++ lit "```" ++ lit "\n" := by decide
  refine ⟨lit "**Prompt Template:**", lit "---", ?_⟩
  rw [h1]
  simp [joinWith]

/-- C11. For every project with a non-empty prompt template and no docs (missing or an
empty list), the documents stage pushes nothing, so the segments of the project are its
metadata, its optional description, the template block and the closing rule, without any
`### 📄 Documents` heading; and the text returned by `convertProjectsToMarkdown` contains
a line of three backticks, the template, and a line of three backticks, one right after
the other. -/
theorem template_without_documents (h : Host) (p : Project) (t : JSString)
    (ht : p.prompt_template = Val.str t) (hne : t ≠ [])
    (hdocs : p.docs = ListField.falsy ∨ p.docs = ListField.arr []) :
    renderDocs h p.docs = Except.ok [] ∧
    renderProject h (some p) =
      Except.ok ([ lit "## " ++ p.name.toStr,
                   lit "**Created:** " ++ h.dateLocale p.created_at,
                   lit "**Updated:** " ++ h.dateLocale p.updated_at,
                   lit "**Private:** " ++ (if p.is_private.truthy then lit "Yes" else lit "No"),
                   lit "**UUID:** " ++ p.uuid.toStr ] ++
        (if p.description.truthy then [lit "", lit "**Description:**", p.description.joinStr]
         else []) ++
        [lit "", lit "**Prompt Template:**", lit "```", t, lit "```"] ++ [lit "---", lit ""]) ∧
    (∀ (projects : List (Option Project)) (out : JSString), some p ∈ projects →
      convertProjectsToMarkdown h projects = Except.ok out →
      lit "\n```\n" ++ t ++ lit "\n```\n" <:+: out) ∧
    (∃ out, convertProjectsToMarkdown h [some p] = Except.ok out ∧
      lit "\n```\n" ++ t ++ lit "\n```\n" <:+: out) := by
  have hd : renderDocs h p.docs = Except.ok [] := renderDocs_none hdocs
  have htr : p.prompt_template.truthy = true := by
    rw [ht]
    exact truthy_str_of_ne_nil hne
  have hp : renderProject h (some p) =
      Except.ok ([ lit "## " ++ p.name.toStr,
                   lit "**Created:** " ++ h.dateLocale p.created_at,
                   lit "**Updated:** " ++ h.dateLocale p.updated_at,
                   lit "**Private:** " ++ (if p.is_private.truthy then lit "Yes" else lit "No"),
                   lit "**UUID:** " ++ p.uuid.toStr ] ++
        (if p.description.truthy then [lit "", lit "**Description:**", p.description.joinStr]
         else []) ++
        [lit "", lit "**Prompt Template:**", lit "```", t, lit "```"] ++ [lit "---", lit ""]) := by
    simp only [renderProject, hd, htr, if_true, bind, Except.bind, pure, Except.pure,
      List.append_nil]
    rw [ht]
    rfl
  have hall : ∀ (projects : List (Option Project)) (out : JSString), some p ∈ projects →
      convertProjectsToMarkdown h projects = Except.ok out →
      lit "\n```\n" ++ t ++ lit "\n```\n" <:+: out := by
    intro projects out hmem hout
    simp only [convertProjectsToMarkdown, bind, Except.bind, pure, Except.pure] at hout
    cases hs : forEachPush (renderProject h) projects with
    | error e => simp [hs] at hout
    | ok sections =>
      simp only [hs, Except.ok.injEq] at hout
      obtain ⟨b, hb, hinf⟩ := forEachPush_split hs (some p) hmem
      rw [hp] at hb
      have hb' := Except.ok.inj hb
      have hblock : [lit "**Prompt Template:**", lit "```", t, lit "```", lit "---"] <:+: b := by
        rw [← hb']
        exact ⟨[ lit "## " ++ p.name.toStr,
                 lit "**Created:** " ++ h.dateLocale p.created_at,
                 lit "**Updated:** " ++ h.dateLocale p.updated_at,
                 lit "**Private:** " ++ (if p.is_private.truthy then lit "Yes" else lit "No"),
                 lit "**UUID:** " ++ p.uuid.toStr ] ++
          (if p.description.truthy then
            [lit "", lit "**Description:**", p.description.joinStr] else []) ++ [lit ""],
          [lit ""], by simp⟩
      have hbits : [lit "**Prompt Template:**", lit "```", t, lit "```", lit "---"] <:+:
          [lit "# Claude Projects", lit ""] ++ sections :=
        List.IsInfix.trans (List.IsInfix.trans hblock hinf) (List.suffix_append _ _).isInfix
      rw [← hout]
      exact List.IsInfix.trans (template_block_text t)
        (joinWith_segment (lit "\n") (by simp) hbits)
  refine ⟨hd, hp, hall, ?_⟩
  cases hres : convertProjectsToMarkdown h [some p] with
  | error e =>
    simp [convertProjectsToMarkdown, forEachPush_cons, hp, forEachPush, bind, Except.bind,
      pure, Except.pure] at hres
  | ok out => exact ⟨out, rfl, hall [some p] out (by simp) hres⟩

/-- C11, at a project with the template `Be brief.` and no `docs` field. -/
theorem template_without_documents_witness :
    renderDocs sampleHost templateProject.docs = Except.ok [] ∧
    ∃ out, convertProjectsToMarkdown sampleHost [some templateProject] = Except.ok out ∧
      lit "\n```\n" ++ lit "Be brief." ++ lit "\n```\n" <:+: out :=
  have hw := template_without_documents sampleHost templateProject (lit "Be brief.") rfl
    (by decide) (Or.inl rfl)
  ⟨hw.1, hw.2.2.2⟩

theorem docLanguage_toStr (h : Host) (filename : JSString) :
    (docLanguage h filename).toStr = docTag ((h.toLowerCase (h.extname filename)).drop 1) := by
  unfold docLanguage docTag
  simp only
  by_cases hmd : (h.toLowerCase (h.extname filename)).drop 1 = lit "md"
  · rw [if_pos hmd, if_pos hmd]
    rfl
  · rw [if_neg hmd, if_neg hmd]
    cases hext : (h.toLowerCase (h.extname filename)).drop 1 with
    | nil => rfl
    | cons a as => rfl

/-- The segments pushed for one project document whose filename is a string. -/
theorem renderDoc_tagged (h : Host) (d : Doc) (name : JSString)
    (hname : d.filename = Val.str name) :
    renderDoc h (some d) =
      Except.ok [ lit "#### " ++ name,
                  lit "*Created: " ++ h.dateLocale d.created_at ++ lit "*",
                  lit "",
                  lit "```" ++ docTag ((h.toLowerCase (h.extname name)).drop 1),
                  d.content.joinStr,
                  lit "```",
                  lit "" ] := by
  simp only [renderDoc, hname, Val.asString, bind, Except.bind, pure, Except.pure,
    docLanguage_toStr]
  rfl

theorem renderDoc_block (h : Host) {d : Doc} (hname : d.filename.isStr = true) :
    renderDoc h (some d) = Except.ok (docBlock h d) := by
  cases hn : d.filename with
  | str name =>
    rw [renderDoc_tagged h d name hn]
    simp only [docBlock, hn, Val.toStr]
  | undef => simp [hn, Val.isStr] at hname
  | null => simp [hn, Val.isStr] at hname
  | bool b => simp [hn, Val.isStr] at hname
  | num t => simp [hn, Val.isStr] at hname
  | obj t => simp [hn, Val.isStr] at hname

theorem forEachPush_some_blocks {α : Type} {f : Option α → Except JSError (List JSString)}
    {g : α → List JSString} :
    ∀ (xs : List α), (∀ x ∈ xs, f (some x) = Except.ok (g x)) →
      forEachPush f (xs.map some) = Except.ok (xs.map g).flatten := by
  intro xs
  induction xs with
  | nil => intro _; rfl
  | cons x xs ih =>
    intro hall
    rw [List.map_cons, forEachPush_cons, hall x (List.mem_cons_self _ _),
      ih (fun y hy => hall y (List.mem_cons_of_mem _ hy))]
    rfl

theorem segment_of_mem_flatten {L : List (List JSString)} {l : List JSString} (hl : l ∈ L) :
    l <:+: L.flatten := by
  induction L with
  | nil => simp at hl
  | cons x xs ih =>
    rw [List.flatten_cons]
    rcases List.mem_cons.1 hl with h0 | h0
    · rw [h0]
      exact (List.prefix_append _ _).isInfix
    · exact List.IsInfix.trans (ih h0) (List.suffix_append _ _).isInfix

theorem renderDocs_blocks (h : Host) {docs : List Doc} (hne : docs ≠ [])
    (hnames : ∀ d ∈ docs, d.filename.isStr = true) :
    renderDocs h (ListField.arr (docs.map some)) =
      Except.ok ([lit "", lit "### 📄 Documents"] ++ (docs.map (docBlock h)).flatten) := by
  have hloop : forEachPush (renderDoc h) (docs.map some) =
      Except.ok (docs.map (docBlock h)).flatten :=
    forEachPush_some_blocks docs (fun d hd => renderDoc_block h (hnames d hd))
  cases docs with
  | nil => exact absurd rfl hne
  | cons d rest =>
    rw [List.map_cons] at hloop ⊢
    simp only [renderDocs, hloop, bind, Except.bind, pure, Except.pure]

/-- When a project renders, so did its documents, and their segments are a contiguous
run of the segments of the project. -/
theorem renderProject_docs (h : Host) {p : Project} {s : List JSString}
    (hs : renderProject h (some p) = Except.ok s) :
    ∃ docsSegments, renderDocs h p.docs = Except.ok docsSegments ∧ docsSegments <:+: s := by
  simp only [renderProject, bind, Except.bind, pure, Except.pure] at hs
  cases hd : renderDocs h p.docs with
  | error e => simp [hd] at hs
  | ok ds =>
    simp only [hd, Except.ok.injEq] at hs
    refine ⟨ds, rfl, ?_⟩
    rw [← hs]
    exact ⟨_, [lit "---", lit ""], rfl⟩

theorem renderProject_ok_of_docs (h : Host) {p : Project} {ds : List JSString}
    (hd : renderDocs h p.docs = Except.ok ds) :
    ∃ s, renderProject h (some p) = Except.ok s := by
  cases hs : renderProject h (some p) with
  | ok s => exact ⟨s, rfl⟩
  | error e => simp [renderProject, hd, bind, Except.bind, pure, Except.pure] at hs

theorem joinWith_docBlock (h : Host) (d : Doc) :
    joinWith (lit "\n") (docBlock h d) = docText h d := by
  have hempty : lit "" = [] := rfl
  simp [joinWith, docBlock, docText, List.append_assoc, hempty]

/-- C12. For every project whose documents have string filenames, each document is
rendered as its block, whose opening fence is tagged `markdown` when the lower-cased
extension of the filename is `md`, otherwise with that extension (without its dot) when it
is non-empty, otherwise with `text`: the tag depends on the filename alone, the lookup
table `typeLookup` plays no part. The documents part of the project is the heading
followed by these blocks in order, and every text that `convertProjectsToMarkdown`
returns for an array containing the project contains the text of each block, fence and
tag included. -/
theorem doc_language_tag (h : Host) (p : Project) (docs : List Doc)
    (hdocs : p.docs = ListField.arr (docs.map some)) (hne : docs ≠ [])
    (hnames : ∀ d ∈ docs, d.filename.isStr = true) :
    (∀ d ∈ docs, renderDoc h (some d) =
      Except.ok [ lit "#### " ++ d.filename.toStr,
                  lit "*Created: " ++ h.dateLocale d.created_at ++ lit "*",
                  lit "",
                  lit "```" ++ docTag ((h.toLowerCase (h.extname d.filename.toStr)).drop 1),
                  d.content.joinStr,
                  lit "```",
                  lit "" ]) ∧
    renderDocs h p.docs =
      Except.ok ([lit "", lit "### 📄 Documents"] ++ (docs.map (docBlock h)).flatten) ∧
    (∀ (projects : List (Option Project)) (out : JSString), some p ∈ projects →
      convertProjectsToMarkdown h projects = Except.ok out →
      ∀ d ∈ docs, docText h d <:+: out) ∧
    (∃ out, convertProjectsToMarkdown h [some p] = Except.ok out ∧
      ∀ d ∈ docs, docText h d <:+: out) := by
  have hrd : renderDocs h p.docs =
      Except.ok ([lit "", lit "### 📄 Documents"] ++ (docs.map (docBlock h)).flatten) := by
    rw [hdocs]
    exact renderDocs_blocks h hne hnames
  have hall : ∀ (projects : List (Option Project)) (out : JSString), some p ∈ projects →
      convertProjectsToMarkdown h projects = Except.ok out →
      ∀ d ∈ docs, docText h d <:+: out := by
    intro projects out hmem hout d hd
    simp only [convertProjectsToMarkdown, bind, Except.bind, pure, Except.pure] at hout
    cases hs : forEachPush (renderProject h) projects with
    | error e => simp [hs] at hout
    | ok sections =>
      simp only [hs, Except.ok.injEq] at hout
      obtain ⟨b, hb, hinf⟩ := forEachPush_split hs (some p) hmem
      obtain ⟨ds, hds, hdsinf⟩ := renderProject_docs h hb
      rw [hrd] at hds
      have hds' := Except.ok.inj hds
      have hblock : docBlock h d <:+: ds := by
        rw [← hds']
        exact List.IsInfix.trans
          (segment_of_mem_flatten (List.mem_map.2 ⟨d, hd, rfl⟩))
          (List.suffix_append _ _).isInfix
      have hbits : docBlock h d <:+: [lit "# Claude Projects", lit ""] ++ sections :=
        List.IsInfix.trans (List.IsInfix.trans (List.IsInfix.trans hblock hdsinf) hinf)
          (List.suffix_append _ _).isInfix
      rw [← hout, ← joinWith_docBlock]
      exact joinWith_segment (lit "\n") (by simp [docBlock]) hbits
  refine ⟨?_, hrd, hall, ?_⟩
  · intro d hd
    have := renderDoc_block h (hnames d hd)
    rw [this]
    rfl
  · obtain ⟨s, hs⟩ := renderProject_ok_of_docs h hrd
    cases hres : convertProjectsToMarkdown h [some p] with
    | error e =>
      simp [convertProjectsToMarkdown, forEachPush_cons, hs, forEachPush, bind, Except.bind,
        pure, Except.pure] at hres
    | ok out => exact ⟨out, rfl, hall [some p] out (by simp) hres⟩

set_option maxRecDepth 100000 in
/-- C12, at a project with the documents `README.MD` and `Makefile`. -/
theorem doc_language_tag_witness :
    renderDocs sampleHost documentedProject.docs =
      Except.ok ([lit "", lit "### 📄 Documents"] ++
        ([ (⟨Val.str (lit "README.MD"), Val.undef, Val.str (lit "x")⟩ : Doc),
           ⟨Val.str (lit "Makefile"), Val.undef, Val.str (lit "all:")⟩ ].map
          (docBlock sampleHost)).flatten) ∧
    docText sampleHost ⟨Val.str (lit "README.MD"), Val.undef, Val.str (lit "x")⟩ =
      lit "#### README.MD\n*Created: Invalid Date*\n\n```markdown\nx\n```\n" ∧
    docText sampleHost ⟨Val.str (lit "Makefile"), Val.undef, Val.str (lit "all:")⟩ =
      lit "#### Makefile\n*Created: Invalid Date*\n\n```text\nall:\n```\n" ∧
    docTag ((sampleHost.toLowerCase (sampleHost.extname (lit "notes.txt"))).drop 1) =
      lit "txt" ∧
    ∃ out, convertProjectsToMarkdown sampleHost [some documentedProject] = Except.ok out ∧
      ∀ d ∈ [ (⟨Val.str (lit "README.MD"), Val.undef, Val.str (lit "x")⟩ : Doc),
              ⟨Val.str (lit "Makefile"), Val.undef, Val.str (lit "all:")⟩ ],
        docText sampleHost d <:+: out :=
  have hw := doc_language_tag sampleHost documentedProject
    [ ⟨Val.str (lit "README.MD"), Val.undef, Val.str (lit "x")⟩,
      ⟨Val.str (lit "Makefile"), Val.undef, Val.str (lit "all:")⟩ ]
    rfl (by simp) (by decide)
  ⟨hw.2.1, by decide, by decide, by decide, hw.2.2.2⟩

/-! ## The claims about the sections of a message -/

/-- C18. For every message whose sender is a string `s`, the header segment is
`## 👤 Human` when `s` is exactly `human`, and otherwise `## 🤖 ` followed by `s` with
its first code unit upper-cased and the rest unchanged; so `Human` and `HUMAN` get the
non-human icon. -/
theorem sender_header (h : Host) (s : JSString) :
    (s = lit "human" → h.toUpperCase (lit "h") = lit "H" →
      senderHeader h (Val.str s) = Except.ok (lit "## 👤 Human")) ∧
    (s ≠ lit "human" →
      senderHeader h (Val.str s) =
        Except.ok (lit "## 🤖 " ++ (h.toUpperCase (s.take 1) ++ s.drop 1))) ∧
    senderHeader h (Val.str (lit "Human")) =
      Except.ok (lit "## 🤖 " ++ (h.toUpperCase (lit "H") ++ lit "uman")) ∧
    senderHeader h (Val.str (lit "HUMAN")) =
      Except.ok (lit "## 🤖 " ++ (h.toUpperCase (lit "H") ++ lit "UMAN")) := by
  have hrobot : ∀ t : JSString, t ≠ lit "human" →
      senderHeader h (Val.str t) =
        Except.ok (lit "## 🤖 " ++ (h.toUpperCase (t.take 1) ++ t.drop 1)) := by
    intro t ht
    have hne : Val.str t ≠ Val.str (lit "human") := fun hv => ht (Val.str.inj hv)
    have hicon : lit "## " ++ lit "🤖" ++ lit " " = lit "## 🤖 " := by decide
    simp only [senderHeader, if_neg hne, Val.asString, bind, Except.bind, pure, Except.pure]
    rw [hicon]
  refine ⟨?_, hrobot s, hrobot (lit "Human") (by decide), hrobot (lit "HUMAN") (by decide)⟩
  intro hs hup
  subst hs
  have htake : (lit "human").take 1 = lit "h" := by decide
  have hdrop : (lit "human").drop 1 = lit "uman" := by decide
  have hall : lit "## " ++ lit "👤" ++ lit " " ++ (lit "H" ++ lit "uman") = lit "## 👤 Human" := by
    decide
  simp only [senderHeader, if_true, Val.asString, bind, Except.bind, pure, Except.pure, htake,
    hdrop, hup]
  rw [hall]

/-- C18, at the senders `human` and `assistant` on the sample host. -/
theorem sender_header_witness :
    senderHeader sampleHost (Val.str (lit "human")) = Except.ok (lit "## 👤 Human") ∧
    senderHeader sampleHost (Val.str (lit "assistant")) =
      Except.ok (lit "## 🤖 " ++ (sampleHost.toUpperCase ((lit "assistant").take 1) ++
        (lit "assistant").drop 1)) ∧
    lit "## 🤖 " ++ (sampleHost.toUpperCase ((lit "assistant").take 1) ++
        (lit "assistant").drop 1) = lit "## 🤖 Assistant" :=
  ⟨(sender_header sampleHost (lit "human")).1 rfl (by decide),
   (sender_header sampleHost (lit "assistant")).2.1 (by decide),
   by decide⟩

/-- When the loop completes, the segments it pushed are the concatenation, in order, of
what the callback returned for each item. -/
theorem forEachPush_parts {α : Type} {f : α → Except JSError (List JSString)} :
    ∀ {xs : List α} {bits : List JSString}, forEachPush f xs = Except.ok bits →
      ∃ parts : List (List JSString),
        List.Forall₂ (fun x b => f x = Except.ok b) xs parts ∧ bits = parts.flatten := by
  intro xs
  induction xs with
  | nil =>
    intro bits hbits
    have hb : bits = [] := by
      simp only [forEachPush, pure, Except.pure, Except.ok.injEq] at hbits
      exact hbits.symm
    exact ⟨[], List.Forall₂.nil, by rw [hb]; rfl⟩
  | cons y ys ih =>
    intro bits hbits
    rw [forEachPush_cons] at hbits
    cases hy : f y with
    | error e => simp [hy] at hbits
    | ok a =>
      cases hys : forEachPush f ys with
      | error e => simp [hy, hys] at hbits
      | ok b =>
        simp only [hy, hys, Except.ok.injEq] at hbits
        obtain ⟨parts, hparts, hflat⟩ := ih hys
        exact ⟨a :: parts, List.Forall₂.cons hy hparts, by rw [← hbits, hflat]; rfl⟩

/-- The loop over `xs ++ ys` pushes what the loop over `xs` pushes, then what the loop
over `ys` pushes. -/
theorem forEachPush_append {α : Type} (f : α → Except JSError (List JSString)) :
    ∀ (xs ys : List α) (a b : List JSString), forEachPush f xs = Except.ok a →
      forEachPush f ys = Except.ok b → forEachPush f (xs ++ ys) = Except.ok (a ++ b) := by
  intro xs
  induction xs with
  | nil =>
    intro ys a b ha hb
    have : a = [] := by
      simp only [forEachPush, pure, Except.pure, Except.ok.injEq] at ha
      exact ha.symm
    rw [this]
    exact hb
  | cons x xs ih =>
    intro ys a b ha hb
    rw [forEachPush_cons] at ha
    cases hx : f x with
    | error e => simp [hx] at ha
    | ok p =>
      cases hxs : forEachPush f xs with
      | error e => simp [hx, hxs] at ha
      | ok q =>
        simp only [hx, hxs, Except.ok.injEq] at ha
        rw [List.cons_append, forEachPush_cons, hx, ih ys q b hxs hb, ← ha]
        simp

theorem isSectionOf_of_ok {h : Host} {m : Option Message} {s : List JSString}
    (hs : renderMessage h m = Except.ok s) : IsSectionOf h m s := by
  cases m with
  | none => simp [renderMessage, throw, throwThe, MonadExceptOf.throw] at hs
  | some m' =>
    obtain ⟨header, body, atts, files, hh, _, _, _, hbits⟩ := renderMessage_inv h hs
    refine ⟨hs, m', header, [lit "*" ++ h.dateEnUS m'.created_at ++ lit "*"] ++ body ++ atts ++
      files, rfl, hh, ?_⟩
    rw [hbits]
    simp

theorem conversationHeader_eq (h : Host) (c : Conversation) :
    conversationHeader h c =
      [ lit "# " ++ (if c.name.truthy then c.name.toStr else lit "Untitled Conversation"),
        lit "**Created:** " ++ h.dateLocale c.created_at,
        lit "**Updated:** " ++ h.dateLocale c.updated_at,
        lit "**UUID:** " ++ c.uuid.toStr,
        lit "---" ] := by
  unfold conversationHeader Val.or
  split_ifs <;> rfl

/-- C15. For every conversation with a `chat_messages` list, the returned text is the
join with a blank line of the five header segments (the title `# <name>`, or
`# Untitled Conversation` when the name is missing or empty, the created line, the updated
line, the UUID line, `---`) followed by one section per message, in order, each the
result of the callback on that message alone, starting with its sender header and ending
with `---`; and the segments for `m₁ ++ m₂` are the segments for `m₁` followed by those
for `m₂`. The text is returned whenever the messages conform to the data model. -/
theorem conversation_document_shape (h : Host) (c : Conversation)
    (messages : List (Option Message)) (hc : c.chat_messages = ListField.arr messages) :
    (∀ out, convertClaudeJsonToMarkdown h (some c) = Except.ok out →
      ∃ sections : List (List JSString),
        List.Forall₂ (IsSectionOf h) messages sections ∧
        sections.length = messages.length ∧
        out = joinWith (lit "\n\n")
          ([ lit "# " ++ (if c.name.truthy then c.name.toStr else lit "Untitled Conversation"),
             lit "**Created:** " ++ h.dateLocale c.created_at,
             lit "**Updated:** " ++ h.dateLocale c.updated_at,
             lit "**UUID:** " ++ c.uuid.toStr,
             lit "---" ] ++ sections.flatten)) ∧
    (∀ (m₁ m₂ : List (Option Message)) (a b : List JSString),
      forEachPush (renderMessage h) m₁ = Except.ok a →
      forEachPush (renderMessage h) m₂ = Except.ok b →
      forEachPush (renderMessage h) (m₁ ++ m₂) = Except.ok (a ++ b)) ∧
    (messagesWellFormed messages →
      ∃ out, convertClaudeJsonToMarkdown h (some c) = Except.ok out) := by
  refine ⟨?_, forEachPush_append (renderMessage h), ?_⟩
  · intro out hout
    obtain ⟨bits, hbits, hjoin⟩ := convert_arr_inv h hc hout
    obtain ⟨parts, hparts, hflat⟩ := forEachPush_parts hbits
    refine ⟨parts, ?_, hparts.length_eq.symm, ?_⟩
    · exact List.Forall₂.imp (fun m s hms => isSectionOf_of_ok hms) hparts
    · rw [hjoin, hflat, conversationHeader_eq]
  · intro hwf
    obtain ⟨sections, _, hout⟩ := convert_arr_ok h hc hwf
    exact ⟨_, hout⟩

/-- C15, at a conversation of two messages on the sample host. -/
theorem conversation_document_shape_witness :
    ∃ out, convertClaudeJsonToMarkdown sampleHost
      (some (conversationOf Val.undef (ListField.arr [some textOnlyMessage, some toolMessage])))
        = Except.ok out ∧
      ∃ sections : List (List JSString),
        List.Forall₂ (IsSectionOf sampleHost) [some textOnlyMessage, some toolMessage] sections ∧
        sections.length = [some textOnlyMessage, some toolMessage].length ∧
        out = joinWith (lit "\n\n")
          ([ lit "# " ++
              (if (conversationOf Val.undef
                    (ListField.arr [some textOnlyMessage, some toolMessage])).name.truthy
                then (conversationOf Val.undef
                    (ListField.arr [some textOnlyMessage, some toolMessage])).name.toStr
                else lit "Untitled Conversation"),
             lit "**Created:** " ++ sampleHost.dateLocale Val.undef,
             lit "**Updated:** " ++ sampleHost.dateLocale Val.undef,
             lit "**UUID:** " ++ Val.undef.toStr,
             lit "---" ] ++ sections.flatten) :=
  have hshape := conversation_document_shape sampleHost
    (conversationOf Val.undef (ListField.arr [some textOnlyMessage, some toolMessage]))
    [some textOnlyMessage, some toolMessage] rfl
  ⟨_, rfl, hshape.1 _ rfl⟩

theorem renderAttachment_block (h : Host) {a : Attachment}
    (hname : a.extracted_content.truthy = true → a.file_name.isStr = true) :
    renderAttachment h (some a) = Except.ok (attachmentBlock h a) := by
  by_cases ht : a.extracted_content.truthy = true
  · have hs := hname ht
    cases hn : a.file_name with
    | str s =>
      simp only [renderAttachment, attachmentBlock, attachmentSummary, ht, if_true, hn,
        Val.asString, Val.toStr, bind, Except.bind, pure, Except.pure]
    | undef => simp [hn, Val.isStr] at hs
    | null => simp [hn, Val.isStr] at hs
    | bool b => simp [hn, Val.isStr] at hs
    | num t => simp [hn, Val.isStr] at hs
    | obj t => simp [hn, Val.isStr] at hs
  · simp only [renderAttachment, attachmentBlock, attachmentSummary, ht, if_false,
      Bool.false_eq_true, bind, Except.bind, pure, Except.pure]

theorem summary_ne_markup (a : Attachment) :
    attachmentSummary a ≠ lit "<details>" ∧ attachmentSummary a ≠ lit "</details>" := by
  have hs : lit "<summary>" = 60 :: 115 :: lit "ummary>" := by decide
  have hd : lit "<details>" = 60 :: 100 :: lit "etails>" := by decide
  have hc : lit "</details>" = 60 :: 47 :: lit "details>" := by decide
  unfold attachmentSummary
  rw [hs, hd, hc]
  constructor <;> simp

theorem fence_ne_markup (x : JSString) :
    lit "```" ++ x ≠ lit "<details>" ∧ lit "```" ++ x ≠ lit "</details>" := by
  have hf : lit "```" = 96 :: 96 :: 96 :: [] := by decide
  have hd : lit "<details>" = 60 :: 100 :: lit "etails>" := by decide
  have hc : lit "</details>" = 60 :: 47 :: lit "details>" := by decide
  rw [hf, hd, hc]
  constructor <;> simp

theorem count_attachmentBlock (h : Host) (a : Attachment) (hc : contentIsNotMarkup a) :
    (attachmentBlock h a).count (lit "<details>") = 1 ∧
    (attachmentBlock h a).count (lit "</details>") = 1 := by
  obtain ⟨hs1, hs2⟩ := summary_ne_markup a
  obtain ⟨hf1, hf2⟩ := fence_ne_markup (attachmentLanguage h a.file_name.toStr a.file_type).toStr
  obtain ⟨hc1, hc2⟩ := hc
  have he1 : lit "" ≠ lit "<details>" := by decide
  have he2 : lit "" ≠ lit "</details>" := by decide
  have hb1 : lit "```" ≠ lit "<details>" := by decide
  have hb2 : lit "```" ≠ lit "</details>" := by decide
  have hx1 : lit "</details>" ≠ lit "<details>" := by decide
  have hx2 : lit "<details>" ≠ lit "</details>" := by decide
  unfold attachmentBlock
  constructor
  · split_ifs <;>
      simp [List.count_cons, List.count_append, hs1, hf1, hc1, he1, hb1, hx1]
  · split_ifs <;>
      simp [List.count_cons, List.count_append, hs2, hf2, hc2, he2, hb2, hx2]

theorem count_flatten_blocks (h : Host) (x : JSString) :
    ∀ (as : List Attachment), (∀ a ∈ as, (attachmentBlock h a).count x = 1) →
      ((as.map (attachmentBlock h)).flatten).count x = as.length := by
  intro as
  induction as with
  | nil => intro _; rfl
  | cons a as ih =>
    intro hall
    rw [List.map_cons, List.flatten_cons, List.count_append,
      hall a (List.mem_cons_self _ _), ih (fun b hb => hall b (List.mem_cons_of_mem _ hb)),
      List.length_cons]
    omega

/-- C16. For every message with attachments `a₁..aₖ` (`k ≥ 1`, each an object whose
`file_name` is a string when it has extracted content), the attachments part of the
section is one `### 📎 Attachments` heading followed, for each attachment in order, by its
block: `<details>`, the summary, the fenced code block exactly when there is extracted
content, `</details>`. There are as many blocks as attachments, and the `<details>` and
`</details>` segments are each as many as the attachments (no extracted content being,
as a whole, one of these two markup texts). A message with no attachments (missing or
empty list) pushes none of these segments. -/
theorem attachments_section (h : Host) (as : List Attachment) (hne : as ≠ [])
    (hnames : ∀ a ∈ as, a.extracted_content.truthy = true → a.file_name.isStr = true) :
    renderAttachments h (ListField.arr (as.map some)) =
      Except.ok (lit "### 📎 Attachments" :: (as.map (attachmentBlock h)).flatten) ∧
    (∀ (m : Message) (s : List JSString), m.attachments = ListField.arr (as.map some) →
      renderMessage h (some m) = Except.ok s →
      ∃ before after, s = before ++
        (lit "### 📎 Attachments" :: (as.map (attachmentBlock h)).flatten) ++ after) ∧
    (as.map (attachmentBlock h)).length = as.length ∧
    ((∀ a ∈ as, contentIsNotMarkup a) →
      ((as.map (attachmentBlock h)).flatten).count (lit "<details>") = as.length ∧
      ((as.map (attachmentBlock h)).flatten).count (lit "</details>") = as.length) ∧
    renderAttachments h ListField.falsy = Except.ok [] ∧
    renderAttachments h (ListField.arr []) = Except.ok [] := by
  have hloop : forEachPush (renderAttachment h) (as.map some) =
      Except.ok (as.map (attachmentBlock h)).flatten :=
    forEachPush_some_blocks as (fun a ha => renderAttachment_block h (hnames a ha))
  have hatt : renderAttachments h (ListField.arr (as.map some)) =
      Except.ok (lit "### 📎 Attachments" :: (as.map (attachmentBlock h)).flatten) := by
    cases as with
    | nil => exact absurd rfl hne
    | cons a rest =>
      rw [List.map_cons] at hloop ⊢
      simp only [renderAttachments, hloop, bind, Except.bind, pure, Except.pure]
  refine ⟨hatt, ?_, by simp, ?_, rfl, rfl⟩
  · intro m s hm hs
    obtain ⟨header, body, atts, files, _, _, ha, _, hbits⟩ := renderMessage_inv h hs
    rw [hm, hatt] at ha
    have ha' := Except.ok.inj ha
    refine ⟨[header, lit "*" ++ h.dateEnUS m.created_at ++ lit "*"] ++ body,
      files ++ [lit "---"], ?_⟩
    rw [hbits, ← ha']
    simp
  · intro hcontent
    exact ⟨count_flatten_blocks h _ as (fun a ha => (count_attachmentBlock h a (hcontent a ha)).1),
      count_flatten_blocks h _ as (fun a ha => (count_attachmentBlock h a (hcontent a ha)).2)⟩

/-- C16, at two attachments, the first with extracted content `x` and the second
without. -/
theorem attachments_section_witness :
    renderAttachments sampleHost (ListField.arr
      ([ (⟨Val.str (lit "a.py"), Val.num (lit "1"), Val.str (lit "text/x-python"),
            Val.str (lit "x")⟩ : Attachment),
         ⟨Val.str (lit "b.bin"), Val.num (lit "2"), Val.undef, Val.undef⟩ ].map some)) =
      Except.ok (lit "### 📎 Attachments" ::
        ([ (⟨Val.str (lit "a.py"), Val.num (lit "1"), Val.str (lit "text/x-python"),
              Val.str (lit "x")⟩ : Attachment),
           ⟨Val.str (lit "b.bin"), Val.num (lit "2"), Val.undef, Val.undef⟩ ].map
          (attachmentBlock sampleHost)).flatten) ∧
    ([ (⟨Val.str (lit "a.py"), Val.num (lit "1"), Val.str (lit "text/x-python"),
          Val.str (lit "x")⟩ : Attachment),
       ⟨Val.str (lit "b.bin"), Val.num (lit "2"), Val.undef, Val.undef⟩ ].map
      (attachmentBlock sampleHost)).flatten =
      [ lit "<details>", lit "<summary>a.py (1 bytes, text/x-python)</summary>", lit "",
        lit "```py", lit "x", lit "```", lit "</details>",
        lit "<details>", lit "<summary>b.bin (2 bytes, undefined)</summary>",
        lit "</details>" ] :=
  ⟨(attachments_section sampleHost
      [ ⟨Val.str (lit "a.py"), Val.num (lit "1"), Val.str (lit "text/x-python"),
          Val.str (lit "x")⟩,
        ⟨Val.str (lit "b.bin"), Val.num (lit "2"), Val.undef, Val.undef⟩ ]
      (by simp) (by decide)).1,
   by decide⟩

/-- The file references of a message: one `**File:**` segment per entry, in order,
whatever the attachments of the message are. -/
theorem renderFiles_all (fs : List FileRef) (hne : fs ≠ []) :
    renderFiles (ListField.arr (fs.map some)) =
      Except.ok (fs.map (fun f => lit "**File:** " ++ f.file_name.toStr)) := by
  have hloop : forEachPush renderFile (fs.map some) =
      Except.ok (fs.map (fun f => [lit "**File:** " ++ f.file_name.toStr])).flatten :=
    forEachPush_some_blocks fs (fun f _ => rfl)
  have hflat : (fs.map (fun f => [lit "**File:** " ++ f.file_name.toStr])).flatten =
      fs.map (fun f => lit "**File:** " ++ f.file_name.toStr) := by
    clear hloop hne
    induction fs with
    | nil => rfl
    | cons f fs ih => simp [ih]
  cases fs with
  | nil => exact absurd rfl hne
  | cons f rest =>
    rw [hflat] at hloop
    rw [List.map_cons] at hloop ⊢
    simp only [renderFiles, hloop]

set_option maxRecDepth 100000 in
/-- C17, the failing input. A message with the attachment `a.txt` and a file reference
to the same `a.txt` gets a `**File:** a.txt` segment all the same: lines 94-98 push one
segment per entry of `files` and never look at the attachments. -/
theorem duplicate_file_listed :
    renderMessage sampleHost (some duplicateFileMessage) =
      Except.ok [ lit "## 👤 Human",
                  lit "*Invalid Date*",
                  lit "### 📎 Attachments",
                  lit "<details>",
                  lit "<summary>a.txt (1 bytes, text/plain)</summary>",
                  lit "</details>",
                  lit "**File:** a.txt",
                  lit "---" ] := by
  decide

end ClaudeExport
